import Mathlib

/-!
Verification of the blueprint compiler in `paguro/models/vfm/_blueprint.py`.

The Python module is shallowly embedded below: each `def` in this file mirrors
one function of the source (names kept where Lean allows).  Python strings are
modelled as `String`/`List Char`; Python sets of used names as `List String`
(membership is all the source uses); Python dicts as association lists that
preserve insertion order, with updates keeping the first-insertion position,
which is exactly CPython dict semantics.  Character classes follow the source's
ASCII regex `[^0-9a-zA-Z_]`; `str.isidentifier` is modelled with ASCII
identifier syntax (the repository only exercises ASCII keys).
-/

namespace Paguro

/-- ASCII digit `0`-`9`, as tested by `s[0].isdigit()` on sanitized strings. -/
def isDigitC (c : Char) : Bool := decide (48 ≤ c.toNat ∧ c.toNat ≤ 57)

/-- ASCII lowercase letter. -/
def isLowerC (c : Char) : Bool := decide (97 ≤ c.toNat ∧ c.toNat ≤ 122)

/-- ASCII uppercase letter. -/
def isUpperC (c : Char) : Bool := decide (65 ≤ c.toNat ∧ c.toNat ≤ 90)

/-- ASCII alphanumeric character. -/
def isAlnumC (c : Char) : Bool := isDigitC c || isLowerC c || isUpperC c

/-- A character of the class `[0-9a-zA-Z_]` of `_ident_re`. -/
def isIdentCharC (c : Char) : Bool := isAlnumC c || c == '_'

/-- ASCII letter. -/
def isAlphaC (c : Char) : Bool := isLowerC c || isUpperC c

/-- `p[:1].upper()` on one character: uppercase an ASCII lowercase letter
(`chr(ord(c) - 32)`), leave everything else unchanged.  `_to_class_name` only
capitalizes characters that survived `_sanitize_ident`, i.e. ASCII
alphanumerics, where Python `str.upper` is exactly this map. -/
def charUpper (c : Char) : Char :=
  if isLowerC c then Char.ofNat (c.toNat - 32) else c

/-- `_ident_re.sub("_", name)` : replace every maximal run of characters
outside `[0-9a-zA-Z_]` by a single underscore.  The flag records whether the
previous character was part of a bad run (so the run contributes only one
underscore). -/
def subRunsAux : Bool → List Char → List Char
  | _, [] => []
  | inBad, c :: rest =>
    if isIdentCharC c then c :: subRunsAux false rest
    else if inBad then subRunsAux true rest
    else '_' :: subRunsAux true rest

/-- `_ident_re.sub("_", name)`. -/
def subRuns (l : List Char) : List Char := subRunsAux false l

/-- Drop leading underscores. -/
def dropUnd (l : List Char) : List Char := l.dropWhile (fun c => c == '_')

/-- Drop a trailing run of underscores. -/
def dropTrailUnd : List Char → List Char
  | [] => []
  | c :: rest =>
    match dropTrailUnd rest with
    | [] => if c == '_' then [] else [c]
    | r => c :: r

/-- Python `str.strip("_")`: drop leading and trailing underscores. -/
def stripUnd (l : List Char) : List Char := dropTrailUnd (dropUnd l)

/-- The Python reserved keywords (`keyword.kwlist`, Python 3). -/
def pyKeywords : List String :=
  ["False", "None", "True", "and", "as", "assert", "async", "await",
   "break", "class", "continue", "def", "del", "elif", "else", "except",
   "finally", "for", "from", "global", "if", "import", "in", "is",
   "lambda", "nonlocal", "not", "or", "pass", "raise", "return", "try",
   "while", "with", "yield"]

/-- Body of `_sanitize_ident`, on character lists. -/
def sanitizeCore (l : List Char) : List Char :=
  let s0 := stripUnd (subRuns l)
  let s1 := if s0.isEmpty then ['x'] else s0
  let s2 := if isDigitC (s1.headD 'x') then '_' :: s1 else s1
  if pyKeywords.contains (String.mk s2) then s2 ++ ['_'] else s2

/-- `_sanitize_ident`. -/
def sanitizeIdent (s : String) : String := String.mk (sanitizeCore s.data)

/-- `re.split(r"_+", base)`, modelled as splitting on single underscores;
`_to_class_name` filters out empty segments, after which the two agree. -/
def splitUnd : List Char → List (List Char)
  | [] => [[]]
  | c :: rest =>
    if c == '_' then [] :: splitUnd rest
    else
      match splitUnd rest with
      | [] => [[c]]
      | p :: ps => (c :: p) :: ps

/-- `p[:1].upper() + p[1:]` for a nonempty segment. -/
def capPart : List Char → List Char
  | [] => []
  | c :: cs => charUpper c :: cs

/-- Body of `_to_class_name`, on character lists. -/
def toClassNameCore (l : List Char) : List Char :=
  (((splitUnd (sanitizeCore l)).filter (fun p => !p.isEmpty)).map capPart).flatten

/-- `_to_class_name`. -/
def toClassName (s : String) : String := String.mk (toClassNameCore s.data)

/-- `str.isidentifier` (ASCII fragment): nonempty, first character a letter or
underscore, remaining characters letters, digits or underscores. -/
def pyIsIdentifier (s : String) : Bool :=
  match s.data with
  | [] => false
  | c :: rest => (isAlphaC c || c == '_') && rest.all isIdentCharC

/-- `_is_valid_identifier`: nonempty, identifier syntax, not a keyword. -/
def isValidIdentifier (s : String) : Bool :=
  !s.isEmpty && pyIsIdentifier s && !pyKeywords.contains s

/-- Decimal digit character. -/
def digChar (d : Nat) : Char := Char.ofNat (48 + d)

/-- Little-endian decimal digits of `n` (with fuel, so that it reduces). -/
def decDigits : Nat → Nat → List Nat
  | 0, _ => []
  | fuel + 1, n => if n = 0 then [] else n % 10 :: decDigits fuel (n / 10)

/-- Python `str(n)` for a natural number. -/
def decRepr (n : Nat) : String :=
  if n = 0 then "0" else String.mk (((decDigits n n).reverse).map digChar)

/-! ## Data model

A polars data type (`DataType`) as far as `_blueprint.py` inspects it:
a scalar tag (`Int64`, `String`, ...), `List(inner)`, `Array(inner, width)`
or `Struct(fields)`.  The `width` abstracts the textual payload rendered for
`dt.shape`.  A `SchemaTree` maps column names to either a leaf data type or a
nested tree (struct column); insertion order is significant, so it is an
association list. -/

inductive PlDType where
  | scalar (name : String)
  | list (inner : PlDType)
  | array (inner : PlDType) (width : Nat)
  | struct (fields : List (String × PlDType))

inductive STree where
  | leaf (dt : PlDType)
  | node (children : List (String × STree))

/-! Computable structural sizes, used as fuel bounds for the recursions that
descend through nested association lists. -/

mutual

def PlDType.size : PlDType → Nat
  | .scalar _ => 1
  | .list inner => 1 + inner.size
  | .array inner _ => 1 + inner.size
  | .struct fields => 1 + fieldsSize fields

def fieldsSize : List (String × PlDType) → Nat
  | [] => 1
  | (_, d) :: rest => 1 + d.size + fieldsSize rest

end

mutual

def STree.size : STree → Nat
  | .leaf _ => 1
  | .node children => 1 + schemaSize children

def schemaSize : List (String × STree) → Nat
  | [] => 1
  | (_, v) :: rest => 1 + v.size + schemaSize rest

end

/-- `_dtype_name`. -/
def dtypeName : PlDType → String
  | .scalar n => n
  | .list _ => "List"
  | .array _ _ => "Array"
  | .struct _ => "Struct"

/-- `_render_vcol_ctor_and_posargs`. -/
def renderVcolCtorAndPosargs (dt : PlDType) : String × List String :=
  let name := dtypeName dt
  if name == "List" then ("pg.vcol.List", [])
  else if name == "Array" then ("pg.vcol.Array", [])
  else ("pg.vcol." ++ name, [])

/-- Python `repr` of a string, for names without quotes or backslashes
(the only shape exercised by generated field and class names). -/
def pyRepr (s : String) : String := "\x27" ++ s ++ "\x27"

/-- `", ".join(l)`. -/
def joinComma (l : List String) : String := String.intercalate ", " l

/-- `_render_pl_dtype_expr`, with fuel so the recursion through the nested
field list stays structural. -/
def renderDtypeF : Nat → PlDType → String
  | 0, _ => ""
  | fuel + 1, dt =>
    match dt with
    | .scalar n => "pl." ++ n
    | .list inner => "pl.List(" ++ renderDtypeF fuel inner ++ ")"
    | .array inner width =>
        "pl.Array(" ++ renderDtypeF fuel inner ++ ", " ++ decRepr width ++ ")"
    | .struct fields =>
        "pl.Struct([" ++
          joinComma (fields.map (fun f =>
            "pl.Field(" ++ pyRepr f.1 ++ ", " ++ renderDtypeF fuel f.2 ++ ")")) ++ "])"

/-- `_render_pl_dtype_expr`. -/
def renderPlDtypeExpr (dt : PlDType) : String := renderDtypeF dt.size dt

/-! ## Name reservation (`_reserve_class_name`, `_reserve_attr_name`) -/

/-- The `while` loop of the two reservation helpers: try `mk i`, `mk (i+1)`,
... until a candidate is not in `seen`.  `seen.length + 1` fuel always
suffices because the candidates are pairwise distinct. -/
def reserveLoop (seen : List String) (mk : Nat → String) : Nat → Nat → String
  | _, 0 => ""
  | i, fuel + 1 => if seen.contains (mk i) then reserveLoop seen mk (i + 1) fuel else mk i

/-- `_reserve_class_name`: try `base`; on conflict `base2`, `base3`, ...
(no underscore).  Returns the reserved name and the grown `seen` set. -/
def reserveClassName (seen : List String) (base : String) : String × List String :=
  if seen.contains base then
    let cand := reserveLoop seen (fun i => base ++ decRepr i) 2 (seen.length + 1)
    (cand, cand :: seen)
  else (base, base :: seen)

/-- `_reserve_attr_name`: sanitize, then on conflict `base_2`, `base_3`, ...
(underscore-separated). -/
def reserveAttrName (seen : List String) (originalKey : String) : String × List String :=
  let base := sanitizeIdent originalKey
  if seen.contains base then
    let cand := reserveLoop seen (fun i => base ++ "_" ++ decRepr i) 2 (seen.length + 1)
    (cand, cand :: seen)
  else (base, base :: seen)

/-! ## Class-body rendering (`build_class` in `_schemas_to_module`) -/

/-- `include_dtypes : bool | Literal["as_values"]`. -/
inductive IncludeDtypes where
  | off
  | on
  | asValues
deriving DecidableEq

structure Config where
  includeDtypes : IncludeDtypes
  allowNulls : Option Bool
  multiRoots : Bool

/-- Python `str(b)` for a bool. -/
def pyBool (b : Bool) : String := if b then "True" else "False"

/-- The `name="<original key>"` keyword, emitted only when the reserved
attribute differs from the raw key. -/
def leafNameKw (attr originalKey : String) : List String :=
  if attr == originalKey then [] else ["name=\"" ++ originalKey ++ "\""]

/-- The `allow_nulls=...` keyword, omitted when the policy is `None`. -/
def leafAllowKw (allowNulls : Option Bool) : List String :=
  match allowNulls with
  | none => []
  | some b => ["allow_nulls=" ++ pyBool b]

/-- The right-hand side of a leaf field line, in the three rendering modes of
`build_class`. -/
def leafCall (cfg : Config) (attr originalKey : String) (dt : PlDType) : String :=
  let nameKw := leafNameKw attr originalKey
  let allowKw := leafAllowKw cfg.allowNulls
  match cfg.includeDtypes with
  | .on =>
      let hp := renderVcolCtorAndPosargs dt
      let kwargs := nameKw ++ allowKw
      if !hp.2.isEmpty && !kwargs.isEmpty then hp.1 ++ "(" ++ joinComma (hp.2 ++ kwargs) ++ ")"
      else if !hp.2.isEmpty then hp.1 ++ "(" ++ joinComma hp.2 ++ ")"
      else hp.1 ++ "(" ++ joinComma kwargs ++ ")"
  | .asValues =>
      if dtypeName dt == "List" || dtypeName dt == "Array" then
        let hp := renderVcolCtorAndPosargs dt
        let kwargs := ("dtype=" ++ renderPlDtypeExpr dt) :: (nameKw ++ allowKw)
        hp.1 ++ "(" ++ joinComma kwargs ++ ")"
      else
        let kwargs := ("dtype=" ++ renderPlDtypeExpr dt) :: (nameKw ++ allowKw)
        "pg.vcol(" ++ joinComma kwargs ++ ")"
  | .off =>
      if dtypeName dt == "List" || dtypeName dt == "Array" then
        let hp := renderVcolCtorAndPosargs dt
        let kwargs := nameKw ++ allowKw
        if kwargs.isEmpty then hp.1 ++ "()" else hp.1 ++ "(" ++ joinComma kwargs ++ ")"
      else
        let kwargs := nameKw ++ allowKw
        if kwargs.isEmpty then "pg.vcol()" else "pg.vcol(" ++ joinComma kwargs ++ ")"

/-- `child_class_for_key[k]` (keys are unique in a `Mapping`, so `find?`
matches dict lookup). -/
def lookupDefault (m : List (String × String)) (k : String) : String :=
  match m.find? (fun p => p.1 == k) with
  | some p => p.2
  | none => ""

/-- The attribute lines of one class body, threading `used_attrs` exactly as
the field loop of `build_class` does.  Returns `(reserved attr, line)` pairs;
the emitted body uses the lines. -/
def classLines (cfg : Config) (childMap : List (String × String)) :
    List (String × STree) → List String → List (String × String)
  | [], _ => []
  | (k, v) :: rest, usedAttrs =>
    let r := reserveAttrName usedAttrs k
    let line :=
      match v with
      | .node _ => "    " ++ r.1 ++ ": " ++ lookupDefault childMap k
      | .leaf dt => "    " ++ r.1 ++ " = " ++ leafCall cfg r.1 k dt
    (r.1, line) :: classLines cfg childMap rest r.2

/-- `f"class {cls_name}(vfm.VFrameModel):"`. -/
def classHeader (clsName : String) : String := "class " ++ clsName ++ "(vfm.VFrameModel):"

/-- One class-body text block as appended to `emitted` by `build_class`
(joined lines, ending with an empty line). -/
def renderClassBlock (cfg : Config) (tree : List (String × STree))
    (childMap : List (String × String)) (clsName : String) : String :=
  if tree.isEmpty then
    String.intercalate "\n" [classHeader clsName, "    pass", ""]
  else
    String.intercalate "\n"
      (classHeader clsName :: ((classLines cfg childMap tree []).map (fun p => p.2) ++ [""]))

/-- Instrumentation: one record per class built during a compile call (ghost
state; the embedded code never reads it back). -/
structure NameEvent where
  isRoot : Bool
  key : String
  rootName : String
  suggested : String
  base : String
  actual : String
  usedBefore : List String
  children : List (String × String)
deriving DecidableEq

/-- The per-call mutable state of `_schemas_to_module`: `used_class_names`,
`emitted`, plus the ghost log. -/
structure BuildState where
  used : List String
  emitted : List String
  log : List NameEvent

/-- The recursion of `build_class` over nested structs: processes a list of
children, building a full class for every struct-valued entry (post-order:
the child block is appended before returning).  Structural on `fuel`; any
`fuel ≥ sizeOf children` computes the true result. -/
def buildChildren (cfg : Config) (rootName : String) :
    Nat → List (String × STree) → BuildState → List (String × String) × BuildState
  | 0, _, st => ([], st)
  | _ + 1, [], st => ([], st)
  | fuel + 1, (k, v) :: rest, st =>
    match v with
    | .leaf _ => buildChildren cfg rootName fuel rest st
    | .node sub =>
      let childBase := toClassName k
      let suggested := if cfg.multiRoots then childBase ++ rootName else childBase
      let base := toClassName suggested
      let r := reserveClassName st.used base
      let rec1 := buildChildren cfg rootName fuel sub { st with used := r.2 }
      let block := renderClassBlock cfg sub rec1.1 r.1
      let st2 : BuildState :=
        { rec1.2 with
          emitted := rec1.2.emitted ++ [block],
          log := rec1.2.log ++ [⟨false, k, rootName, suggested, base, r.1, st.used, rec1.1⟩] }
      let rec2 := buildChildren cfg rootName fuel rest st2
      ((k, r.1) :: rec2.1, rec2.2)

/-- `build_class` on one struct: reserve the class name, recurse into the
children, then append this class's own body (post-order).  Returns the actual
class name.  `buildChildren`'s struct case is exactly this function applied to
the child (`buildChildren_node` below). -/
def buildClassCore (cfg : Config) (rootName : String) (fuel : Nat)
    (isRoot : Bool) (key suggested : String) (sub : List (String × STree))
    (st : BuildState) : String × BuildState :=
  let base := toClassName suggested
  let r := reserveClassName st.used base
  let rec1 := buildChildren cfg rootName fuel sub { st with used := r.2 }
  let block := renderClassBlock cfg sub rec1.1 r.1
  let st2 : BuildState :=
    { rec1.2 with
      emitted := rec1.2.emitted ++ [block],
      log := rec1.2.log ++ [⟨isRoot, key, rootName, suggested, base, r.1, st.used, rec1.1⟩] }
  (r.1, st2)

/-! ## Identifier validation (`ensure_nested_keys_are_identifiers`) -/

/-- `".".join(path)`. -/
def dotJoin (l : List String) : String := String.intercalate "." l

/-- The `walk` of `ensure_nested_keys_are_identifiers`: collect, in traversal
order, the dotted path of every struct-valued key that is not a valid
identifier.  Leaf keys are never inspected. -/
def collectBadF : Nat → List (String × STree) → List String → List String
  | 0, _, _ => []
  | _ + 1, [], _ => []
  | fuel + 1, (k, v) :: rest, path =>
    match v with
    | .leaf _ => collectBadF fuel rest path
    | .node sub =>
        (if isValidIdentifier k then [] else [dotJoin (path ++ [k])])
          ++ collectBadF fuel sub (path ++ [k])
          ++ collectBadF fuel rest path

/-- `list(dict.fromkeys(bad))`: deduplicate keeping first occurrences. -/
def firstDedup : List String → List String
  | [] => []
  | a :: l => a :: (firstDedup l).filter (fun b => b != a)

/-- The `ValueError` message built by `ensure_nested_keys_are_identifiers`. -/
def invalidIdentsMsg (uniq : List String) : String :=
  "Invalid identifiers: Struct column name must be a valid Python identifier. "
    ++ String.intercalate ", " uniq
    ++ "\nPlease ensure the name is a valid python identifier."

/-- `ensure_nested_keys_are_identifiers`: raises (returns `.error`) listing
all offending dotted paths of this one schema, deduplicated. -/
def ensureNestedKeysAreIdentifiers (schema : List (String × STree)) : Except String Unit :=
  let bad := collectBadF (schemaSize schema) schema []
  if bad.isEmpty then .ok () else .error (invalidIdentsMsg (firstDedup bad))

/-- The validation loop at the top of `_schemas_to_module`: stops at the first
root whose schema raises. -/
def validateRoots : List (String × List (String × STree)) → Except String Unit
  | [] => .ok ()
  | (_, schema) :: rest =>
    match ensureNestedKeysAreIdentifiers schema with
    | .error e => .error e
    | .ok _ => validateRoots rest

/-! ## Module assembly (`_schemas_to_module`) -/

/-- The fixed import header, with the conditional polars import. -/
def moduleHeader (includeDtypes : IncludeDtypes) : List String :=
  ["import paguro as pg", "from paguro.models import vfm"]
    ++ (if includeDtypes = .asValues then ["import polars as pl"] else []) ++ [""]

/-- The root loop of `_schemas_to_module`: build each root class (children
first), collecting actual root names in root-declaration order. -/
def buildRoots (cfg : Config) :
    List (String × List (String × STree)) → BuildState → List String × BuildState
  | [], st => ([], st)
  | (rootKey, schema) :: rest, st =>
    let rootName := toClassName rootKey
    let r := buildClassCore cfg rootName (schemaSize schema) true rootKey rootName schema st
    let rec2 := buildRoots cfg rest r.2
    (r.1 :: rec2.1, rec2.2)

structure ModuleOut where
  text : String
  rootNames : List String
  state : BuildState

/-- `_schemas_to_module`, exposing the final state and root names. -/
def schemasToModuleCore (schemasByRoot : List (String × List (String × STree)))
    (includeDtypes : IncludeDtypes) (allowNulls : Option Bool) (multiRoots : Bool) :
    Except String ModuleOut :=
  match validateRoots schemasByRoot with
  | .error e => .error e
  | .ok _ =>
    let cfg : Config := ⟨includeDtypes, allowNulls, multiRoots⟩
    let r := buildRoots cfg schemasByRoot ⟨[], [], []⟩
    let allLine := "__all__ = [" ++ joinComma (r.1.map pyRepr) ++ "]"
    .ok ⟨String.intercalate "\n" (moduleHeader includeDtypes ++ [allLine, ""] ++ r.2.emitted),
         r.1, r.2⟩

/-- `_schemas_to_module` (text only). -/
def schemasToModule (schemasByRoot : List (String × List (String × STree)))
    (includeDtypes : IncludeDtypes) (allowNulls : Option Bool) (multiRoots : Bool) :
    Except String String :=
  (schemasToModuleCore schemasByRoot includeDtypes allowNulls multiRoots).map (fun m => m.text)

/-! ## Input normalization and file materialization (`collect_model_blueprint`,
`_write_model_blueprint_to_python_file`)

Schema extraction (`collect_schema` / `_unnest_schema`) is the out-of-scope
collaborator: inputs are modelled as already-unnested schema trees. -/

inductive BInput where
  | single (schema : List (String × STree))
  | mapping (entries : List (String × List (String × STree)))

/-- CPython dict assignment `d[k] = v`: a repeated key keeps its original
position but takes the new value. -/
def dictInsert (d : List (String × List (String × STree))) (k : String)
    (v : List (String × STree)) : List (String × List (String × STree)) :=
  if d.any (fun p => p.1 == k) then d.map (fun p => if p.1 == k then (k, v) else p)
  else d ++ [(k, v)]

/-- The normalization at the top of `collect_model_blueprint`: produce
`schemas_by_root` (keyed by the converted root name) and the `multi_roots`
flag. -/
def normalizeInput (data : BInput) (rootClassName : String) :
    List (String × List (String × STree)) × Bool :=
  match data with
  | .mapping items =>
      (items.foldl (fun d p => dictInsert d (toClassName p.1) p.2) [],
       decide (items.length > 1))
  | .single schema => ([(toClassName rootClassName, schema)], false)

/-- The destination path, abstracted to the predicates the source tests. -/
structure PathSpec where
  pathStr : String
  parentStr : String
  hasPySuffix : Bool
  parentExists : Bool
  parentIsDir : Bool

/-- Python exceptions raised by the compiler, by type. -/
inductive PyError where
  | valueError (msg : String)
  | fileNotFoundError (msg : String)
  | fileExistsError (msg : String)
deriving DecidableEq

/-- Observable events of one compile call, in order. -/
inductive Ev where
  | assembledText
  | checkedSuffix
  | checkedParent
  | checkedExists
  | wroteFile
deriving DecidableEq

structure WriteOut where
  trace : List Ev
  fsAfter : Option String
  result : Except PyError (Option String)

/-- `_write_model_blueprint_to_python_file`.  The destination file's contents
are `destBefore` (`none` = file does not exist); `fsAfter` is the contents
after the call.  The usage-suggestion printing is a stdout side effect with no
further behaviour and is not modelled. -/
def writeModelBlueprintToPythonFile (blueprint : String) (path : Option PathSpec)
    (destBefore : Option String) : WriteOut :=
  match path with
  | none => ⟨[], destBefore, .ok (some blueprint)⟩
  | some p =>
    if !p.hasPySuffix then
      ⟨[.checkedSuffix], destBefore,
        .error (.valueError ("Expected a \x27.py\x27 path, got: " ++ p.pathStr))⟩
    else if !p.parentExists || !p.parentIsDir then
      ⟨[.checkedSuffix, .checkedParent], destBefore,
        .error (.fileNotFoundError ("Parent folder must already exist: " ++ p.parentStr))⟩
    else if destBefore.isSome then
      ⟨[.checkedSuffix, .checkedParent, .checkedExists], destBefore,
        .error (.fileExistsError ("Refusing to overwrite existing file: " ++ p.pathStr))⟩
    else
      ⟨[.checkedSuffix, .checkedParent, .checkedExists, .wroteFile], some blueprint, .ok none⟩

structure RunOut where
  trace : List Ev
  fsAfter : Option String
  result : Except PyError (Option String)

/-- `collect_model_blueprint`: normalize, assemble the module text, then
either return it (`path is None`) or hand it to the file writer.  The trace
records that text assembly happens before any destination check. -/
def collectModelBlueprint (data : BInput) (path : Option PathSpec)
    (destBefore : Option String) (rootClassName : String)
    (includeDtypes : IncludeDtypes) (allowNulls : Option Bool) : RunOut :=
  let n := normalizeInput data rootClassName
  match schemasToModule n.1 includeDtypes allowNulls n.2 with
  | .error e => ⟨[], destBefore, .error (.valueError e)⟩
  | .ok blueprint =>
    match path with
    | none => ⟨[.assembledText], destBefore, .ok (some blueprint)⟩
    | some p =>
      let w := writeModelBlueprintToPythonFile blueprint (some p) destBefore
      ⟨.assembledText :: w.trace, w.fsAfter, w.result⟩

end Paguro

namespace Paguro

/-! ## Auxiliary definitions used by the verification -/

/-- The shape of every `_to_class_name` output: nonempty, ASCII alphanumeric,
first character uppercase or a digit. -/
def GoodClass (l : List Char) : Prop :=
  l ≠ [] ∧ (∀ c ∈ l, isAlnumC c = true) ∧
    ∀ c t, l = c :: t → (isUpperC c || isDigitC c) = true

/-- Value of a little-endian digit list. -/
def evalDigits (l : List Nat) : Nat := l.foldr (fun d acc => d + 10 * acc) 0

/-- Facts holding of every child-class name reservation logged by
`buildChildren`. -/
def ChildEventSpec (cfg : Config) (rootName : String) (e : NameEvent) : Prop :=
  e.isRoot = false ∧ e.rootName = rootName ∧
  e.suggested = (if cfg.multiRoots then toClassName e.key ++ rootName else toClassName e.key) ∧
  e.base = toClassName e.suggested ∧
  e.actual = (reserveClassName e.usedBefore e.base).1

/-- Facts holding of every event logged during one compile call: the root
name is a naming-convention conversion, roots suggest their own root name
(never suffixed), non-root structs suggest own-key conversion with the root
appended exactly in multi-root mode, the reserve base is the conversion of the
suggestion, and the actual name is the reservation outcome. -/
def RunEventSpec (cfg : Config) (e : NameEvent) : Prop :=
  (∃ rk, e.rootName = toClassName rk) ∧
  (e.isRoot = true → e.suggested = e.rootName) ∧
  (e.isRoot = false →
    e.suggested = if cfg.multiRoots then toClassName e.key ++ e.rootName else toClassName e.key) ∧
  e.base = toClassName e.suggested ∧
  e.actual = (reserveClassName e.usedBefore e.base).1

/-- Whether some struct-valued key anywhere in the tree fails
`_is_valid_identifier` (leaf keys are never inspected). -/
def hasBadStructKey : Nat → List (String × STree) → Bool
  | 0, _ => false
  | _ + 1, [] => false
  | fuel + 1, (k, v) :: rest =>
    match v with
    | .leaf _ => hasBadStructKey fuel rest
    | .node sub =>
        !isValidIdentifier k || hasBadStructKey fuel sub || hasBadStructKey fuel rest

/-- The worked example of the specification: a schema with a struct column
`address` and a scalar column `id`. -/
def addressSchema : List (String × STree) :=
  [("address", STree.node [("street", STree.leaf (PlDType.scalar "String"))]),
   ("id", STree.leaf (PlDType.scalar "Int64"))]

/-- The keys of the struct-valued entries of a tree, in order. -/
def structKeys : List (String × STree) → List String
  | [] => []
  | (k, v) :: rest =>
    match v with
    | .node _ => k :: structKeys rest
    | .leaf _ => structKeys rest

end Paguro

namespace Paguro

/-! ## Lemmas: character classes -/

theorem char_toNat_inj {a b : Char} (h : a.toNat = b.toNat) : a = b :=
  Char.ext (UInt32.ext h)

theorem isLowerC_false_of_upper {c : Char} (h : isUpperC c = true) : isLowerC c = false := by
  simp only [isUpperC, decide_eq_true_eq] at h
  simp only [isLowerC, decide_eq_false_iff_not]
  omega

theorem isLowerC_false_of_digit {c : Char} (h : isDigitC c = true) : isLowerC c = false := by
  simp only [isDigitC, decide_eq_true_eq] at h
  simp only [isLowerC, decide_eq_false_iff_not]
  omega

theorem alnum_ne_und {c : Char} (h : isAlnumC c = true) : ¬ c = '_' := by
  intro he
  subst he
  exact absurd h (by decide)

theorem alnum_ident {c : Char} (h : isAlnumC c = true) : isIdentCharC c = true := by
  simp [isIdentCharC, h]

theorem alnum_of_ident_ne_und {c : Char} (h : isIdentCharC c = true) (hu : ¬ c = '_') :
    isAlnumC c = true := by
  simp only [isIdentCharC, Bool.or_eq_true, beq_iff_eq] at h
  exact h.resolve_right hu

theorem charUpper_of_not_lower {c : Char} (h : isLowerC c = false) : charUpper c = c := by
  simp [charUpper, h]

theorem charUpper_toNat_of_lower {c : Char} (h : isLowerC c = true) :
    (charUpper c).toNat = c.toNat - 32 := by
  have hn : 97 ≤ c.toNat ∧ c.toNat ≤ 122 := by
    simpa only [isLowerC, decide_eq_true_eq] using h
  have hv : (c.toNat - 32).isValidChar := Or.inl (by omega)
  unfold charUpper Char.ofNat
  rw [if_pos h, dif_pos hv]
  rfl

theorem charUpper_upper_of_lower {c : Char} (h : isLowerC c = true) :
    isUpperC (charUpper c) = true := by
  have hn : 97 ≤ c.toNat ∧ c.toNat ≤ 122 := by
    simpa only [isLowerC, decide_eq_true_eq] using h
  have ht := charUpper_toNat_of_lower h
  simp only [isUpperC, decide_eq_true_eq]
  omega

theorem charUpper_head_shape {c : Char} (h : isAlnumC c = true) :
    isAlnumC (charUpper c) = true ∧ (isUpperC (charUpper c) || isDigitC (charUpper c)) = true := by
  cases hl : isLowerC c with
  | true =>
      have hu := charUpper_upper_of_lower hl
      exact ⟨by simp [isAlnumC, hu], by simp [hu]⟩
  | false =>
      rw [charUpper_of_not_lower hl]
      refine ⟨h, ?_⟩
      simp only [isAlnumC, hl, Bool.or_eq_true, Bool.or_false] at h
      rcases h with h | h
      · simp [h]
      · simp [h]

/-! ## Lemmas: `_ident_re.sub`, `strip("_")`, `_sanitize_ident` -/

theorem subRunsAux_ident : ∀ (b : Bool) (l : List Char), ∀ c ∈ subRunsAux b l,
    isIdentCharC c = true := by
  intro b l
  induction l generalizing b with
  | nil => simp [subRunsAux]
  | cons d rest ih =>
    intro c hc
    by_cases hd : isIdentCharC d = true
    · simp only [subRunsAux, if_pos hd, List.mem_cons] at hc
      rcases hc with hc | hc
      · exact hc ▸ hd
      · exact ih false c hc
    · simp only [subRunsAux, if_neg hd] at hc
      cases b with
      | true => exact ih true c (by simpa using hc)
      | false =>
        simp at hc
        rcases hc with hc | hc
        · subst hc; decide
        · exact ih true c hc

theorem subRunsAux_of_ident {l : List Char} (h : ∀ c ∈ l, isIdentCharC c = true) :
    ∀ b, subRunsAux b l = l := by
  induction l with
  | nil => intro b; rfl
  | cons d rest ih =>
    intro b
    have hd : isIdentCharC d = true := h d (by simp)
    simp only [subRunsAux, if_pos hd]
    rw [ih (fun c hc => h c (by simp [hc]))]

theorem dropUnd_subset : ∀ (l : List Char), ∀ c ∈ dropUnd l, c ∈ l := by
  intro l c hc
  exact (List.dropWhile_sublist _).subset hc

theorem dropUnd_shape (l : List Char) :
    dropUnd l = [] ∨ ∃ d u, dropUnd l = d :: u ∧ ¬ d = '_' := by
  induction l with
  | nil => exact Or.inl rfl
  | cons c rest ih =>
    by_cases hc : c = '_'
    · subst hc
      simpa [dropUnd, List.dropWhile_cons] using ih
    · right
      exact ⟨c, rest, by simp [dropUnd, List.dropWhile_cons, hc], hc⟩

theorem dropUnd_of_head_ne {c : Char} {t : List Char} (h : ¬ c = '_') :
    dropUnd (c :: t) = c :: t := by
  simp [dropUnd, List.dropWhile_cons, h]

theorem dropTrailUnd_subset : ∀ (l : List Char), ∀ c ∈ dropTrailUnd l, c ∈ l := by
  intro l
  induction l with
  | nil => simp [dropTrailUnd]
  | cons d rest ih =>
    intro c
    simp only [dropTrailUnd]
    cases hr : dropTrailUnd rest with
    | nil =>
      intro hc
      by_cases hd : d == '_'
      · simp [hd] at hc
      · simp only [hd, Bool.false_eq_true, if_false, List.mem_singleton] at hc
        simp [hc]
    | cons e u =>
      intro hc
      rcases List.mem_cons.mp hc with hc | hc
      · simp [hc]
      · have : c ∈ dropTrailUnd rest := by rw [hr]; exact hc
        have := ih c this
        simp [this]

theorem dropTrailUnd_cons_ne {d : Char} {u : List Char} (hd : ¬ d = '_') :
    ∃ t, dropTrailUnd (d :: u) = d :: t := by
  simp only [dropTrailUnd]
  cases hr : dropTrailUnd u with
  | nil => exact ⟨[], by simp [hd]⟩
  | cons e v => exact ⟨e :: v, rfl⟩

theorem dropTrailUnd_of_no_und {l : List Char} (h : ∀ c ∈ l, ¬ c = '_') :
    dropTrailUnd l = l := by
  induction l with
  | nil => rfl
  | cons d rest ih =>
    have hrest := ih (fun c hc => h c (by simp [hc]))
    simp only [dropTrailUnd, hrest]
    cases rest with
    | nil => simp [h d (by simp)]
    | cons e u => rfl

theorem stripUnd_subset (l : List Char) : ∀ c ∈ stripUnd l, c ∈ l := by
  intro c hc
  exact dropUnd_subset l c (dropTrailUnd_subset _ c hc)

theorem stripUnd_shape (l : List Char) :
    stripUnd l = [] ∨ ∃ d u, stripUnd l = d :: u ∧ ¬ d = '_' ∧ d ∈ l := by
  rcases dropUnd_shape l with h | ⟨d, u, hdu, hd⟩
  · left; simp [stripUnd, h, dropTrailUnd]
  · right
    rcases dropTrailUnd_cons_ne (u := u) hd with ⟨t, ht⟩
    refine ⟨d, t, ?_, hd, ?_⟩
    · simp only [stripUnd]
      rw [hdu, ht]
    · exact dropUnd_subset l d (by simp [hdu])

theorem stripUnd_of_no_und {l : List Char} (hne : l ≠ []) (h : ∀ c ∈ l, ¬ c = '_') :
    stripUnd l = l := by
  rcases l with _ | ⟨c, t⟩
  · exact absurd rfl hne
  · simp only [stripUnd]
    rw [dropUnd_of_head_ne (h c (by simp))]
    exact dropTrailUnd_of_no_und h

theorem sanitizeCore_ident (l : List Char) : ∀ c ∈ sanitizeCore l, isIdentCharC c = true := by
  intro c hc
  simp only [sanitizeCore] at hc
  have base : ∀ d ∈ stripUnd (subRuns l), isIdentCharC d = true := fun d hd =>
    subRunsAux_ident false l d (stripUnd_subset _ d hd)
  have step1 : ∀ d ∈ (if (stripUnd (subRuns l)).isEmpty then ['x'] else stripUnd (subRuns l)),
      isIdentCharC d = true := by
    intro d hd
    by_cases he : (stripUnd (subRuns l)).isEmpty
    · rw [if_pos he] at hd
      simp only [List.mem_singleton] at hd
      subst hd; decide
    · rw [if_neg he] at hd
      exact base d hd
  set s1 := if (stripUnd (subRuns l)).isEmpty then ['x'] else stripUnd (subRuns l) with hs1
  have step2 : ∀ d ∈ (if isDigitC (s1.headD 'x') then '_' :: s1 else s1),
      isIdentCharC d = true := by
    intro d hd
    by_cases hdig : isDigitC (s1.headD 'x') = true
    · rw [if_pos hdig] at hd
      rcases List.mem_cons.mp hd with hd | hd
      · subst hd; decide
      · exact step1 d hd
    · rw [if_neg hdig] at hd
      exact step1 d hd
  set s2 := if isDigitC (s1.headD 'x') then '_' :: s1 else s1 with hs2
  by_cases hkw : pyKeywords.contains (String.mk s2) = true
  · rw [if_pos hkw] at hc
    rcases List.mem_append.mp hc with hc | hc
    · exact step2 c hc
    · simp only [List.mem_singleton] at hc
      subst hc; decide
  · rw [if_neg hkw] at hc
    exact step2 c hc


/-! ## Lemmas: `re.split` and `_to_class_name` -/

theorem splitUnd_ne_nil (l : List Char) : splitUnd l ≠ [] := by
  cases l with
  | nil => simp [splitUnd]
  | cons c rest =>
    simp only [splitUnd]
    by_cases hc : c == '_'
    · simp [hc]
    · simp only [hc, Bool.false_eq_true, if_false]
      cases splitUnd rest with
      | nil => simp
      | cons p ps => simp

theorem splitUnd_chars : ∀ (l : List Char), ∀ p ∈ splitUnd l, ∀ c ∈ p, c ∈ l ∧ ¬ c = '_' := by
  intro l
  induction l with
  | nil =>
    intro p hp
    simp only [splitUnd, List.mem_singleton] at hp
    subst hp
    simp
  | cons d rest ih =>
    intro p
    simp only [splitUnd]
    by_cases hd : d == '_'
    · simp only [hd, if_true, List.mem_cons]
      rintro (hp | hp)
      · subst hp; simp
      · intro c hc
        rcases ih p hp c hc with ⟨h1, h2⟩
        exact ⟨Or.inr h1, h2⟩
    · simp only [hd, Bool.false_eq_true, if_false]
      cases hr : splitUnd rest with
      | nil => exact absurd hr (splitUnd_ne_nil rest)
      | cons q qs =>
        intro hp c hc
        have hdne : ¬ d = '_' := by simpa using hd
        rcases List.mem_cons.mp hp with hp | hp
        · subst hp
          rcases List.mem_cons.mp hc with hc | hc
          · subst hc; exact ⟨by simp, hdne⟩
          · rcases ih q (by rw [hr]; simp) c hc with ⟨h1, h2⟩
            exact ⟨List.mem_cons_of_mem d h1, h2⟩
        · rcases ih p (by rw [hr]; simp [hp]) c hc with ⟨h1, h2⟩
          exact ⟨List.mem_cons_of_mem d h1, h2⟩

theorem splitUnd_of_no_und : ∀ (l : List Char), (∀ c ∈ l, ¬ c = '_') → splitUnd l = [l] := by
  intro l
  induction l with
  | nil => intro _; rfl
  | cons d rest ih =>
    intro h
    have hd : ¬ d = '_' := h d (by simp)
    have hrest := ih (fun c hc => h c (by simp [hc]))
    simp only [splitUnd, beq_iff_eq, hd, if_false, hrest]

theorem splitUnd_append_und : ∀ (l : List Char), (∀ c ∈ l, ¬ c = '_') →
    splitUnd (l ++ ['_']) = [l, []] := by
  intro l
  induction l with
  | nil => intro _; rfl
  | cons d rest ih =>
    intro h
    have hd : ¬ d = '_' := h d (by simp)
    have hrest := ih (fun c hc => h c (by simp [hc]))
    simp only [List.cons_append, splitUnd, beq_iff_eq, hd, if_false, List.append_eq, hrest]

theorem splitUnd_exists_mem : ∀ (l : List Char) (c : Char), c ∈ l → ¬ c = '_' →
    ∃ p ∈ splitUnd l, c ∈ p := by
  intro l
  induction l with
  | nil => simp
  | cons d rest ih =>
    intro c hc hcne
    simp only [splitUnd]
    by_cases hd : d == '_'
    · have hdeq : d = '_' := by simpa using hd
      rcases List.mem_cons.mp hc with hc | hc
      · exact absurd (hc.trans hdeq) hcne
      · rcases ih c hc hcne with ⟨p, hp, hcp⟩
        exact ⟨p, by simp [hd, hp], hcp⟩
    · cases hr : splitUnd rest with
      | nil => exact absurd hr (splitUnd_ne_nil rest)
      | cons q qs =>
        rcases List.mem_cons.mp hc with hc | hc
        · exact ⟨d :: q, by simp [hd, hr], by simp [hc]⟩
        · rcases ih c hc hcne with ⟨p, hp, hcp⟩
          rcases List.mem_cons.mp (hr ▸ hp) with hp2 | hp2
          · exact ⟨d :: q, by simp [hd, hr], by simp [hp2 ▸ hcp]⟩
          · exact ⟨p, by simp [hd, hr, hp2], hcp⟩

theorem sanitizeCore_has_alnum (l : List Char) :
    ∃ c ∈ sanitizeCore l, isAlnumC c = true := by
  simp only [sanitizeCore]
  rcases stripUnd_shape (subRuns l) with h | ⟨d, u, hdu, hd, _⟩
  · refine ⟨'x', ?_, by decide⟩
    rw [h]
    simp only [List.isEmpty_nil, if_true]
    by_cases hdig : isDigitC ((['x'] : List Char).headD 'x') = true
    · rw [if_pos hdig]
      by_cases hkw : pyKeywords.contains (String.mk ['_', 'x']) = true
      · rw [if_pos hkw]; simp
      · rw [if_neg hkw]; simp
    · rw [if_neg hdig]
      by_cases hkw : pyKeywords.contains (String.mk ['x']) = true
      · rw [if_pos hkw]; simp
      · rw [if_neg hkw]; simp
  · have hda : isAlnumC d = true :=
      alnum_of_ident_ne_und (subRunsAux_ident false l d (stripUnd_subset (subRuns l) d (by rw [hdu]; simp))) hd
    refine ⟨d, ?_, hda⟩
    rw [hdu]
    simp only [List.isEmpty_cons, Bool.false_eq_true, if_false]
    by_cases hdig : isDigitC ((d :: u).headD 'x') = true
    · rw [if_pos hdig]
      by_cases hkw : pyKeywords.contains (String.mk ('_' :: d :: u)) = true
      · rw [if_pos hkw]; simp
      · rw [if_neg hkw]; simp
    · rw [if_neg hdig]
      by_cases hkw : pyKeywords.contains (String.mk (d :: u)) = true
      · rw [if_pos hkw]; simp
      · rw [if_neg hkw]; simp

theorem flatten_head_shape : ∀ (ps : List (List Char)) (c : Char) (t : List Char),
    ps.flatten = c :: t → ∃ p ∈ ps, ∃ u, p = c :: u := by
  intro ps
  induction ps with
  | nil => intro c t h; simp at h
  | cons q qs ih =>
    intro c t h
    cases q with
    | nil =>
      simp only [List.flatten_cons, List.nil_append] at h
      rcases ih c t h with ⟨p, hp, hu⟩
      exact ⟨p, by simp [hp], hu⟩
    | cons e v =>
      simp only [List.flatten_cons, List.cons_append, List.cons.injEq] at h
      exact ⟨e :: v, by simp, v, by rw [h.1]⟩

theorem toClassNameCore_good (l : List Char) : GoodClass (toClassNameCore l) := by
  have hparts : ∀ p ∈ (splitUnd (sanitizeCore l)).filter (fun p => !p.isEmpty),
      ∀ c ∈ p, isAlnumC c = true := by
    intro p hp c hc
    have hmem := (List.mem_filter.mp hp).1
    rcases splitUnd_chars (sanitizeCore l) p hmem c hc with ⟨h1, h2⟩
    exact alnum_of_ident_ne_und (sanitizeCore_ident l c h1) h2
  refine ⟨?_, ?_, ?_⟩
  · -- nonempty
    rcases sanitizeCore_has_alnum l with ⟨c, hc, hca⟩
    rcases splitUnd_exists_mem (sanitizeCore l) c hc (alnum_ne_und hca) with ⟨p, hp, hcp⟩
    have hpne : p ≠ [] := by rintro rfl; simp at hcp
    intro hflat
    have : capPart p ∈ ((splitUnd (sanitizeCore l)).filter (fun p => !p.isEmpty)).map capPart :=
      List.mem_map_of_mem capPart (List.mem_filter.mpr ⟨hp, by simpa using hpne⟩)
    rw [toClassNameCore] at hflat
    have hnil := List.flatten_eq_nil_iff.mp hflat _ this
    cases p with
    | nil => exact hpne rfl
    | cons e v => simp [capPart] at hnil
  · -- all alnum
    intro c hc
    rw [toClassNameCore] at hc
    rcases List.mem_flatten.mp hc with ⟨p2, hp2, hcp2⟩
    rcases List.mem_map.mp hp2 with ⟨p, hp, hpe⟩
    subst hpe
    cases p with
    | nil => simp [capPart] at hcp2
    | cons e v =>
      simp only [capPart, List.mem_cons] at hcp2
      rcases hcp2 with hcp2 | hcp2
      · subst hcp2
        exact (charUpper_head_shape (hparts _ hp e (by simp))).1
      · exact hparts _ hp c (by simp [hcp2])
  · -- head uppercase or digit
    intro c t hflat
    rw [toClassNameCore] at hflat
    rcases flatten_head_shape _ c t hflat with ⟨p2, hp2, u, hu⟩
    rcases List.mem_map.mp hp2 with ⟨p, hp, hpe⟩
    cases p with
    | nil => subst hpe; simp [capPart] at hu
    | cons e v =>
      rw [← hpe] at hu
      simp only [capPart, List.cons.injEq] at hu
      rw [← hu.1]
      exact (charUpper_head_shape (hparts _ hp e (by simp))).2

theorem GoodClass_append {a b : List Char} (ha : GoodClass a) (hb : GoodClass b) :
    GoodClass (a ++ b) := by
  rcases ha with ⟨hane, haal, hah⟩
  rcases hb with ⟨hbne, hbal, hbh⟩
  refine ⟨by simp [hane], ?_, ?_⟩
  · intro c hc
    rcases List.mem_append.mp hc with hc | hc
    · exact haal c hc
    · exact hbal c hc
  · intro c t hct
    cases a with
    | nil => exact absurd rfl hane
    | cons e v =>
      simp only [List.cons_append, List.cons.injEq] at hct
      exact hct.1 ▸ hah e v rfl


theorem contains_und_head (s : List Char) :
    pyKeywords.contains (String.mk ('_' :: s)) = false := by
  by_contra hcon
  rw [Bool.not_eq_false] at hcon
  have hmem : String.mk ('_' :: s) ∈ pyKeywords := List.elem_iff.mp hcon
  have hhead : ∀ kw ∈ pyKeywords, kw.data.headD ' ' ≠ '_' := by decide
  exact hhead _ hmem rfl

theorem toClassNameCore_fixed {s : List Char} (h : GoodClass s) : toClassNameCore s = s := by
  rcases h with ⟨hne, hal, hh⟩
  obtain ⟨c, t, rfl⟩ : ∃ c t, s = c :: t := by
    cases s with
    | nil => exact absurd rfl hne
    | cons c t => exact ⟨c, t, rfl⟩
  have hnound : ∀ e ∈ c :: t, ¬ e = '_' := fun e he => alnum_ne_und (hal e he)
  have hident : ∀ e ∈ c :: t, isIdentCharC e = true := fun e he => alnum_ident (hal e he)
  have hhead := hh c t rfl
  have hcap : capPart (c :: t) = c :: t := by
    have hlow : isLowerC c = false := by
      rcases (by simpa using hhead : isUpperC c = true ∨ isDigitC c = true) with hu | hd
      · exact isLowerC_false_of_upper hu
      · exact isLowerC_false_of_digit hd
    simp [capPart, charUpper_of_not_lower hlow]
  have h1 : subRuns (c :: t) = c :: t := subRunsAux_of_ident hident false
  have hstrip : stripUnd (subRuns (c :: t)) = c :: t := by
    rw [h1]
    exact stripUnd_of_no_und (by simp) hnound
  have hsplit1 := splitUnd_of_no_und (c :: t) hnound
  have hsplit2 := splitUnd_append_und (c :: t) hnound
  simp only [toClassNameCore, sanitizeCore, hstrip, List.isEmpty_cons, Bool.false_eq_true,
    if_false, List.headD_cons]
  by_cases hdig : isDigitC c = true
  · rw [if_pos hdig, contains_und_head (c :: t)]
    have hsplit3 : splitUnd ('_' :: c :: t) = [] :: splitUnd (c :: t) := rfl
    simp only [Bool.false_eq_true, if_false, hsplit3, hsplit1]
    simp [hcap]
  · rw [if_neg hdig]
    by_cases hkw : pyKeywords.contains (String.mk (c :: t)) = true
    · rw [if_pos hkw, hsplit2]
      simp [hcap]
    · rw [if_neg hkw, hsplit1]
      simp [hcap]

theorem toClassName_fixed {s : String} (h : GoodClass s.data) : toClassName s = s := by
  cases s with
  | mk data =>
    simp only [toClassName]
    exact congrArg String.mk (toClassNameCore_fixed h)

/-- `_to_class_name` is the identity on concatenations of its own outputs: the
multi-root concatenation `child_base + root_name` passes through the second
`_to_class_name` application inside `build_class` unchanged. -/
theorem toClassName_concat_fixed (k r : String) :
    toClassName (toClassName k ++ toClassName r) = toClassName k ++ toClassName r := by
  apply toClassName_fixed
  rw [String.data_append]
  exact GoodClass_append (toClassNameCore_good k.data) (toClassNameCore_good r.data)

/-- `_to_class_name` is idempotent. -/
theorem toClassName_idem (s : String) : toClassName (toClassName s) = toClassName s :=
  toClassName_fixed (toClassNameCore_good s.data)


/-! ## Lemmas: decimal rendering (`str(i)`) -/

theorem decDigits_lt10 : ∀ (fuel n : Nat), ∀ d ∈ decDigits fuel n, d < 10 := by
  intro fuel
  induction fuel with
  | zero => simp [decDigits]
  | succ fuel ih =>
    intro n d hd
    simp only [decDigits] at hd
    by_cases hn : n = 0
    · simp [hn] at hd
    · rw [if_neg hn] at hd
      rcases List.mem_cons.mp hd with hd | hd
      · subst hd; exact Nat.mod_lt _ (by omega)
      · exact ih _ d hd

theorem decDigits_eval : ∀ (fuel n : Nat), n ≤ fuel → evalDigits (decDigits fuel n) = n := by
  intro fuel
  induction fuel with
  | zero =>
    intro n h
    have hn0 : n = 0 := by omega
    subst hn0
    rfl
  | succ fuel ih =>
    intro n h
    by_cases hn : n = 0
    · subst hn; rfl
    · simp only [decDigits, if_neg hn, evalDigits, List.foldr_cons]
      have hdiv : n / 10 ≤ fuel := by omega
      have := ih (n / 10) hdiv
      rw [show List.foldr (fun d acc => d + 10 * acc) 0 (decDigits fuel (n / 10)) =
        evalDigits (decDigits fuel (n / 10)) from rfl, this]
      omega

theorem digChar_inj : ∀ d1 < 10, ∀ d2 < 10, digChar d1 = digChar d2 → d1 = d2 := by decide

theorem digit_map_inj : ∀ (a b : List Nat), (∀ d ∈ a, d < 10) → (∀ d ∈ b, d < 10) →
    a.map digChar = b.map digChar → a = b := by
  intro a
  induction a with
  | nil =>
    intro b _ _ h
    cases b with
    | nil => rfl
    | cons y ys => simp at h
  | cons x xs ih =>
    intro b ha hb h
    cases b with
    | nil => simp at h
    | cons y ys =>
      simp only [List.map_cons, List.cons.injEq] at h
      have hx := digChar_inj x (ha x (by simp)) y (hb y (by simp)) h.1
      rw [hx, ih ys (fun d hd => ha d (by simp [hd])) (fun d hd => hb d (by simp [hd])) h.2]

theorem string_data_inj {a b : String} (h : a.data = b.data) : a = b := by
  cases a
  cases b
  exact congrArg String.mk h

theorem decRepr_ne_zero {n : Nat} (hn : n ≠ 0) : decRepr n ≠ "0" := by
  intro h
  rw [decRepr, if_neg hn] at h
  have hdata : ((decDigits n n).reverse).map digChar = ['0'] := by
    simpa using congrArg String.data h
  have h0 : ([0] : List Nat).map digChar = ['0'] := by decide
  have hrev : (decDigits n n).reverse = [0] := by
    apply digit_map_inj _ _ ?_ (by simp) (hdata.trans h0.symm)
    intro d hd
    exact decDigits_lt10 n n d (List.mem_reverse.mp hd)
  have hlist : decDigits n n = [0] := by
    have := congrArg List.reverse hrev
    simpa using this
  have := decDigits_eval n n le_rfl
  rw [hlist] at this
  simp [evalDigits] at this
  omega

theorem decRepr_injective : Function.Injective decRepr := by
  intro m n h
  by_cases hm : m = 0
  · subst hm
    by_cases hn : n = 0
    · omega
    · exact absurd h.symm (decRepr_ne_zero hn)
  · by_cases hn : n = 0
    · subst hn
      exact absurd h (decRepr_ne_zero hm)
    · rw [decRepr, if_neg hm, decRepr, if_neg hn] at h
      have hdata := congrArg String.data h
      simp only at hdata
      have hrev : (decDigits m m).reverse = (decDigits n n).reverse := by
        apply digit_map_inj _ _ ?_ ?_ hdata
        · intro d hd; exact decDigits_lt10 m m d (List.mem_reverse.mp hd)
        · intro d hd; exact decDigits_lt10 n n d (List.mem_reverse.mp hd)
      have hlist : decDigits m m = decDigits n n := by
        have := congrArg List.reverse hrev
        simpa using this
      have h1 := decDigits_eval m m le_rfl
      have h2 := decDigits_eval n n le_rfl
      rw [hlist] at h1
      omega

/-! ## Lemmas: the reservation loop -/

theorem reserveLoop_spec (seen : List String) (mk2 : Nat → String) :
    ∀ (fuel i : Nat), (∃ j, j < fuel ∧ seen.contains (mk2 (i + j)) = false) →
    ∃ j, seen.contains (mk2 (i + j)) = false ∧
      (∀ j2, j2 < j → seen.contains (mk2 (i + j2)) = true) ∧
      reserveLoop seen mk2 i fuel = mk2 (i + j) := by
  intro fuel
  induction fuel with
  | zero =>
    rintro i ⟨j, hj, _⟩
    omega
  | succ fuel ih =>
    rintro i ⟨j, hj, hfree⟩
    by_cases h0 : seen.contains (mk2 i) = true
    · have hj0 : j ≠ 0 := by
        intro hje
        subst hje
        rw [Nat.add_zero, h0] at hfree
        cases hfree
      obtain ⟨j1, rfl⟩ : ∃ j1, j = j1 + 1 := ⟨j - 1, by omega⟩
      have hex : ∃ j2, j2 < fuel ∧ seen.contains (mk2 ((i + 1) + j2)) = false :=
        ⟨j1, by omega, by rw [show i + 1 + j1 = i + (j1 + 1) by omega]; exact hfree⟩
      rcases ih (i + 1) hex with ⟨j2, hfree2, hall2, heq⟩
      refine ⟨j2 + 1, ?_, ?_, ?_⟩
      · rw [show i + (j2 + 1) = (i + 1) + j2 by omega]
        exact hfree2
      · intro j3 hj3
        cases j3 with
        | zero => simpa using h0
        | succ j4 =>
          rw [show i + (j4 + 1) = (i + 1) + j4 by omega]
          exact hall2 j4 (by omega)
      · simp only [reserveLoop, if_pos h0]
        rw [heq, show (i + 1) + j2 = i + (j2 + 1) by omega]
    · refine ⟨0, ?_, ?_, ?_⟩
      · rw [Nat.add_zero]
        simpa using h0
      · intro j2 hj2
        omega
      · simp only [reserveLoop, if_neg h0, Nat.add_zero]

theorem exists_fresh (seen : List String) (mk2 : Nat → String)
    (hinj : Function.Injective mk2) (i : Nat) :
    ∃ j, j < seen.length + 1 ∧ seen.contains (mk2 (i + j)) = false := by
  by_contra hcon
  push_neg at hcon
  have hall : ∀ j ≤ seen.length, mk2 (i + j) ∈ seen := by
    intro j hj
    have h1 := hcon j (by omega)
    have : seen.contains (mk2 (i + j)) = true := by
      cases hb : seen.contains (mk2 (i + j)) with
      | true => rfl
      | false => exact absurd hb h1
    exact List.elem_iff.mp this
  have hnodupF : ((List.range (seen.length + 1)).map (fun j => mk2 (i + j))).Nodup := by
    apply List.Nodup.map ?_ (List.nodup_range _)
    intro a b hab
    have := hinj hab
    omega
  have hsub : ((List.range (seen.length + 1)).map (fun j => mk2 (i + j))).toFinset ⊆
      seen.toFinset := by
    intro x hx
    rw [List.mem_toFinset] at hx ⊢
    rcases List.mem_map.mp hx with ⟨j, hj, rfl⟩
    exact hall j (by simpa [Nat.lt_succ_iff] using List.mem_range.mp hj)
  have hcard1 : ((List.range (seen.length + 1)).map (fun j => mk2 (i + j))).toFinset.card =
      seen.length + 1 := by
    rw [List.toFinset_card_of_nodup hnodupF, List.length_map, List.length_range]
  have hcard2 := le_trans (Finset.card_le_card hsub) seen.toFinset_card_le
  omega


theorem append_decRepr_inj (p : String) : Function.Injective (fun i => p ++ decRepr i) := by
  intro a b h
  apply decRepr_injective
  apply string_data_inj
  have hd := congrArg String.data h
  simp only [String.data_append] at hd
  exact (List.append_right_inj p.data).mp hd

theorem not_mem_of_contains_false {seen : List String} {a : String}
    (h : seen.contains a = false) : a ∉ seen := by
  intro hm
  have hc : seen.contains a = true := List.elem_iff.mpr hm
  rw [hc] at h
  cases h

/-- Full behaviour of `_reserve_class_name`: the returned name is fresh, is
added to the set, equals `base` when `base` is unused, and otherwise is
`base<i>` for the smallest unused `i ≥ 2`. -/
theorem reserveClassName_spec (seen : List String) (base : String) :
    (reserveClassName seen base).1 ∉ seen ∧
    (reserveClassName seen base).2 = (reserveClassName seen base).1 :: seen ∧
    (base ∉ seen → (reserveClassName seen base).1 = base) ∧
    (base ∈ seen → ∃ i, 2 ≤ i ∧ (reserveClassName seen base).1 = base ++ decRepr i ∧
      ∀ j, 2 ≤ j → j < i → base ++ decRepr j ∈ seen) := by
  by_cases hb : seen.contains base = true
  · rcases reserveLoop_spec seen (fun i => base ++ decRepr i) (seen.length + 1) 2
        (exists_fresh seen _ (append_decRepr_inj base) 2) with ⟨j, hfree, hall, heq⟩
    have hres : reserveClassName seen base =
        (base ++ decRepr (2 + j), (base ++ decRepr (2 + j)) :: seen) := by
      simp only [reserveClassName, if_pos hb, heq]
    rw [hres]
    refine ⟨not_mem_of_contains_false hfree, rfl, ?_, ?_⟩
    · intro hnb
      exact absurd (List.elem_iff.mp hb) hnb
    · intro _
      refine ⟨2 + j, by omega, rfl, ?_⟩
      intro j2 h2 hlt
      have := hall (j2 - 2) (by omega)
      rw [show 2 + (j2 - 2) = j2 by omega] at this
      exact List.elem_iff.mp this
  · have hbf : seen.contains base = false := by
      cases hc : seen.contains base with
      | true => exact absurd hc hb
      | false => rfl
    have hres : reserveClassName seen base = (base, base :: seen) := by
      simp only [reserveClassName, hbf, Bool.false_eq_true, if_false]
    rw [hres]
    exact ⟨not_mem_of_contains_false hbf, rfl, fun _ => rfl,
      fun hm => absurd hm (not_mem_of_contains_false hbf)⟩

/-- Full behaviour of `_reserve_attr_name`: the returned attribute is fresh,
is added to the set, equals `_sanitize_ident(key)` when unused, and otherwise
is `<sanitized>_<i>` for the smallest unused `i ≥ 2`. -/
theorem reserveAttrName_spec (seen : List String) (key : String) :
    (reserveAttrName seen key).1 ∉ seen ∧
    (reserveAttrName seen key).2 = (reserveAttrName seen key).1 :: seen ∧
    (sanitizeIdent key ∉ seen → (reserveAttrName seen key).1 = sanitizeIdent key) ∧
    (sanitizeIdent key ∈ seen → ∃ i, 2 ≤ i ∧
      (reserveAttrName seen key).1 = sanitizeIdent key ++ "_" ++ decRepr i ∧
      ∀ j, 2 ≤ j → j < i → sanitizeIdent key ++ "_" ++ decRepr j ∈ seen) := by
  by_cases hb : seen.contains (sanitizeIdent key) = true
  · rcases reserveLoop_spec seen (fun i => sanitizeIdent key ++ "_" ++ decRepr i)
        (seen.length + 1) 2
        (exists_fresh seen _ (append_decRepr_inj (sanitizeIdent key ++ "_")) 2) with
      ⟨j, hfree, hall, heq⟩
    have hres : reserveAttrName seen key =
        (sanitizeIdent key ++ "_" ++ decRepr (2 + j),
         (sanitizeIdent key ++ "_" ++ decRepr (2 + j)) :: seen) := by
      simp only [reserveAttrName, if_pos hb, heq]
    rw [hres]
    refine ⟨not_mem_of_contains_false hfree, rfl, ?_, ?_⟩
    · intro hnb
      exact absurd (List.elem_iff.mp hb) hnb
    · intro _
      refine ⟨2 + j, by omega, rfl, ?_⟩
      intro j2 h2 hlt
      have := hall (j2 - 2) (by omega)
      rw [show 2 + (j2 - 2) = j2 by omega] at this
      exact List.elem_iff.mp this
  · have hbf : seen.contains (sanitizeIdent key) = false := by
      cases hc : seen.contains (sanitizeIdent key) with
      | true => exact absurd hc hb
      | false => rfl
    have hres : reserveAttrName seen key = (sanitizeIdent key, sanitizeIdent key :: seen) := by
      simp only [reserveAttrName, hbf, Bool.false_eq_true, if_false]
    rw [hres]
    exact ⟨not_mem_of_contains_false hbf, rfl, fun _ => rfl,
      fun hm => absurd hm (not_mem_of_contains_false hbf)⟩


/-! ## Lemmas: sizes and unfolding equations for the emitter -/

theorem schemaSize_cons (k : String) (v : STree) (rest : List (String × STree)) :
    schemaSize ((k, v) :: rest) = 1 + v.size + schemaSize rest := by
  simp [schemaSize]

theorem size_node (sub : List (String × STree)) :
    (STree.node sub).size = 1 + schemaSize sub := by
  simp [STree.size]

theorem schemaSize_pos (l : List (String × STree)) : 1 ≤ schemaSize l := by
  cases l with
  | nil => simp [schemaSize]
  | cons kv rest =>
    obtain ⟨k, v⟩ := kv
    rw [schemaSize_cons]
    omega

theorem treeSizePos (v : STree) : 1 ≤ v.size := by
  cases v with
  | leaf dt => simp [STree.size]
  | node sub => rw [size_node]; omega

theorem buildChildren_nil_eq (cfg : Config) (rootName : String) (fuel : Nat) (st : BuildState) :
    buildChildren cfg rootName fuel [] st = ([], st) := by
  cases fuel with
  | zero => rfl
  | succ fuel => rfl

theorem buildChildren_leaf_eq (cfg : Config) (rootName : String) (fuel : Nat) (k : String)
    (dt : PlDType) (rest : List (String × STree)) (st : BuildState) :
    buildChildren cfg rootName (fuel + 1) ((k, .leaf dt) :: rest) st =
      buildChildren cfg rootName fuel rest st := rfl

theorem buildChildren_node_eq (cfg : Config) (rootName : String) (fuel : Nat) (k : String)
    (sub rest : List (String × STree)) (st : BuildState) :
    buildChildren cfg rootName (fuel + 1) ((k, .node sub) :: rest) st =
      (let suggested := if cfg.multiRoots then toClassName k ++ rootName else toClassName k
       let c := buildClassCore cfg rootName fuel false k suggested sub st
       let rec2 := buildChildren cfg rootName fuel rest c.2
       ((k, c.1) :: rec2.1, rec2.2)) := rfl

/-! ## Lemmas: attribute names within one class body -/

theorem classLines_cons_eq (cfg : Config) (childMap : List (String × String)) (k : String)
    (v : STree) (rest : List (String × STree)) (used : List String) :
    classLines cfg childMap ((k, v) :: rest) used =
      ((reserveAttrName used k).1,
        match v with
        | .node _ => "    " ++ (reserveAttrName used k).1 ++ ": " ++ lookupDefault childMap k
        | .leaf dt =>
            "    " ++ (reserveAttrName used k).1 ++ " = " ++
              leafCall cfg (reserveAttrName used k).1 k dt) ::
      classLines cfg childMap rest (reserveAttrName used k).2 := rfl

/-- Attribute names of one class body: each is fresh with respect to the
incoming used set, and they are pairwise distinct. -/
theorem classLines_attrs_spec (cfg : Config) (childMap : List (String × String)) :
    ∀ (children : List (String × STree)) (used : List String),
      (∀ a ∈ (classLines cfg childMap children used).map (fun p => p.1), a ∉ used) ∧
      ((classLines cfg childMap children used).map (fun p => p.1)).Nodup := by
  intro children
  induction children with
  | nil => intro used; simp [classLines]
  | cons kv rest ih =>
    intro used
    obtain ⟨k, v⟩ := kv
    rcases reserveAttrName_spec used k with ⟨hfresh, hseen, _, _⟩
    rw [classLines_cons_eq]
    constructor
    · intro a ha
      simp only [List.map_cons, List.mem_cons] at ha
      rcases ha with ha | ha
      · exact ha ▸ hfresh
      · have hnot := (ih (reserveAttrName used k).2).1 a ha
        rw [hseen] at hnot
        intro hau
        exact hnot (List.mem_cons_of_mem _ hau)
    · simp only [List.map_cons, List.nodup_cons]
      refine ⟨?_, (ih _).2⟩
      intro hmem
      have hnot := (ih (reserveAttrName used k).2).1 _ hmem
      rw [hseen] at hnot
      exact hnot (by simp)


theorem buildClassCore_eq (cfg : Config) (rootName : String) (fuel : Nat) (isRoot : Bool)
    (key suggested : String) (sub : List (String × STree)) (st : BuildState) :
    buildClassCore cfg rootName fuel isRoot key suggested sub st =
      ((reserveClassName st.used (toClassName suggested)).1,
       { used := (buildChildren cfg rootName fuel sub
            { st with used := (reserveClassName st.used (toClassName suggested)).2 }).2.used,
         emitted := (buildChildren cfg rootName fuel sub
            { st with used := (reserveClassName st.used (toClassName suggested)).2 }).2.emitted ++
           [renderClassBlock cfg sub
              (buildChildren cfg rootName fuel sub
                { st with used := (reserveClassName st.used (toClassName suggested)).2 }).1
              (reserveClassName st.used (toClassName suggested)).1],
         log := (buildChildren cfg rootName fuel sub
            { st with used := (reserveClassName st.used (toClassName suggested)).2 }).2.log ++
           [⟨isRoot, key, rootName, suggested, toClassName suggested,
             (reserveClassName st.used (toClassName suggested)).1, st.used,
             (buildChildren cfg rootName fuel sub
               { st with used := (reserveClassName st.used (toClassName suggested)).2 }).1⟩] }) :=
  rfl

/-- Master structural lemma for `buildChildren`: the three state components
only grow by appending; the child map lists exactly the struct keys in order;
every assigned child class has its own rendered block among the new blocks;
and every logged event carries the multi-root naming facts. -/
theorem buildChildren_master (cfg : Config) (rootName : String) :
    ∀ (fuel : Nat) (children : List (String × STree)) (st : BuildState),
      schemaSize children ≤ fuel →
      ∃ nn nb ne,
        (buildChildren cfg rootName fuel children st).2.used = nn ++ st.used ∧
        (buildChildren cfg rootName fuel children st).2.emitted = st.emitted ++ nb ∧
        (buildChildren cfg rootName fuel children st).2.log = st.log ++ ne ∧
        (buildChildren cfg rootName fuel children st).1.map Prod.fst = structKeys children ∧
        (∀ p ∈ (buildChildren cfg rootName fuel children st).1,
          ∃ b ∈ nb, ∃ s2 m2, b = renderClassBlock cfg s2 m2 p.2) ∧
        (∀ e ∈ ne, ChildEventSpec cfg rootName e) := by
  intro fuel
  induction fuel with
  | zero =>
    intro children st h
    exact absurd h (by have := schemaSize_pos children; omega)
  | succ fuel ih =>
    intro children st h
    cases children with
    | nil =>
      rw [buildChildren_nil_eq]
      exact ⟨[], [], [], by simp, by simp, by simp, rfl, by simp, by simp⟩
    | cons kv rest =>
      obtain ⟨k, v⟩ := kv
      cases v with
      | leaf dt =>
        have hrest : schemaSize rest ≤ fuel := by
          rw [schemaSize_cons] at h
          have := treeSizePos (.leaf dt)
          omega
        rw [buildChildren_leaf_eq]
        rcases ih rest st hrest with ⟨nn, nb, ne, h1, h2, h3, h4, h5, h6⟩
        exact ⟨nn, nb, ne, h1, h2, h3,
          by rw [show structKeys ((k, STree.leaf dt) :: rest) = structKeys rest from rfl]; exact h4,
          h5, h6⟩
      | node sub =>
        have hsub : schemaSize sub ≤ fuel := by
          rw [schemaSize_cons, size_node] at h
          omega
        have hrest : schemaSize rest ≤ fuel := by
          rw [schemaSize_cons, size_node] at h
          have := schemaSize_pos sub
          omega
        rw [buildChildren_node_eq]
        simp only [buildClassCore_eq]
        rcases reserveClassName_spec st.used
          (toClassName (if cfg.multiRoots then toClassName k ++ rootName else toClassName k)) with
          ⟨hfresh, hgrow, _, _⟩
        rcases ih sub { st with used := (reserveClassName st.used
            (toClassName (if cfg.multiRoots then toClassName k ++ rootName
              else toClassName k))).2 } hsub with
          ⟨nn1, nb1, ne1, i1, i2, i3, i4, i5, i6⟩
        rcases ih rest _ hrest with ⟨nn2, nb2, ne2, j1, j2, j3, j4, j5, j6⟩
        refine ⟨nn2 ++ nn1 ++
            [(reserveClassName st.used (toClassName (if cfg.multiRoots
              then toClassName k ++ rootName else toClassName k))).1],
          nb1 ++ [renderClassBlock cfg sub
            (buildChildren cfg rootName fuel sub { st with used := (reserveClassName st.used
                (toClassName (if cfg.multiRoots then toClassName k ++ rootName
                  else toClassName k))).2 }).1
            (reserveClassName st.used (toClassName (if cfg.multiRoots
              then toClassName k ++ rootName else toClassName k))).1] ++ nb2,
          ne1 ++ [⟨false, k, rootName,
            (if cfg.multiRoots then toClassName k ++ rootName else toClassName k),
            toClassName (if cfg.multiRoots then toClassName k ++ rootName else toClassName k),
            (reserveClassName st.used (toClassName (if cfg.multiRoots
              then toClassName k ++ rootName else toClassName k))).1, st.used,
            (buildChildren cfg rootName fuel sub { st with used := (reserveClassName st.used
                (toClassName (if cfg.multiRoots then toClassName k ++ rootName
                  else toClassName k))).2 }).1⟩] ++ ne2,
          ?_, ?_, ?_, ?_, ?_, ?_⟩
        · rw [j1]
          simp only
          rw [i1]
          simp only
          rw [hgrow]
          simp [List.append_assoc]
        · rw [j2]
          simp only
          rw [i2]
          simp only
          simp [List.append_assoc]
        · rw [j3]
          simp only
          rw [i3]
          simp only
          simp [List.append_assoc]
        · simp only [List.map_cons]
          rw [show structKeys ((k, STree.node sub) :: rest) = k :: structKeys rest from rfl, j4]
        · intro p hp
          rcases List.mem_cons.mp hp with hp | hp
          · subst hp
            refine ⟨renderClassBlock cfg sub
              (buildChildren cfg rootName fuel sub { st with used := (reserveClassName st.used
                  (toClassName (if cfg.multiRoots then toClassName k ++ rootName
                    else toClassName k))).2 }).1
              (reserveClassName st.used (toClassName (if cfg.multiRoots
                then toClassName k ++ rootName else toClassName k))).1, by simp, sub, _, rfl⟩
          · rcases j5 p hp with ⟨b, hb, s2, m2, hbe⟩
            exact ⟨b, by simp [hb], s2, m2, hbe⟩
        · intro e he
          rcases List.mem_append.mp he with he | he2
          · rcases List.mem_append.mp he with he | he
            · exact i6 e he
            · simp only [List.mem_singleton] at he
              subst he
              exact ⟨rfl, rfl, rfl, rfl, rfl⟩
          · exact j6 e he2


theorem buildChildren_nodup (cfg : Config) (rootName : String) :
    ∀ (fuel : Nat) (children : List (String × STree)) (st : BuildState),
      schemaSize children ≤ fuel → st.used.Nodup →
      (buildChildren cfg rootName fuel children st).2.used.Nodup := by
  intro fuel
  induction fuel with
  | zero =>
    intro children st h _
    exact absurd h (by have := schemaSize_pos children; omega)
  | succ fuel ih =>
    intro children st h hnd
    cases children with
    | nil => rw [buildChildren_nil_eq]; exact hnd
    | cons kv rest =>
      obtain ⟨k, v⟩ := kv
      cases v with
      | leaf dt =>
        have hrest : schemaSize rest ≤ fuel := by
          rw [schemaSize_cons] at h
          have := treeSizePos (STree.leaf dt)
          omega
        rw [buildChildren_leaf_eq]
        exact ih rest st hrest hnd
      | node sub =>
        have hsub : schemaSize sub ≤ fuel := by
          rw [schemaSize_cons, size_node] at h
          omega
        have hrest : schemaSize rest ≤ fuel := by
          rw [schemaSize_cons, size_node] at h
          have := schemaSize_pos sub
          omega
        rw [buildChildren_node_eq]
        simp only [buildClassCore_eq]
        rcases reserveClassName_spec st.used
          (toClassName (if cfg.multiRoots then toClassName k ++ rootName
            else toClassName k)) with ⟨hfresh, hgrow, _, _⟩
        apply ih rest _ hrest
        show (buildChildren cfg rootName fuel sub
          { st with used := (reserveClassName st.used (toClassName (if cfg.multiRoots
              then toClassName k ++ rootName else toClassName k))).2 }).2.used.Nodup
        apply ih sub _ hsub
        show (reserveClassName st.used (toClassName (if cfg.multiRoots
          then toClassName k ++ rootName else toClassName k))).2.Nodup
        rw [hgrow]
        exact List.nodup_cons.mpr ⟨hfresh, hnd⟩

theorem buildRoots_cons_eq (cfg : Config) (rootKey : String)
    (schema : List (String × STree)) (rest : List (String × List (String × STree)))
    (st : BuildState) :
    buildRoots cfg ((rootKey, schema) :: rest) st =
      ((buildClassCore cfg (toClassName rootKey) (schemaSize schema) true rootKey
          (toClassName rootKey) schema st).1 ::
        (buildRoots cfg rest (buildClassCore cfg (toClassName rootKey) (schemaSize schema)
          true rootKey (toClassName rootKey) schema st).2).1,
       (buildRoots cfg rest (buildClassCore cfg (toClassName rootKey) (schemaSize schema)
          true rootKey (toClassName rootKey) schema st).2).2) := rfl

/-- Per-root behaviour of the root loop: emitted blocks and the log grow by
appending, all logged events satisfy `RunEventSpec`, and used-name uniqueness
is preserved. -/
theorem buildRoots_spec (cfg : Config) :
    ∀ (roots : List (String × List (String × STree))) (st : BuildState),
      (∃ nb ne, (buildRoots cfg roots st).2.emitted = st.emitted ++ nb ∧
        (buildRoots cfg roots st).2.log = st.log ++ ne ∧
        ∀ e ∈ ne, RunEventSpec cfg e) ∧
      (st.used.Nodup → (buildRoots cfg roots st).2.used.Nodup) := by
  intro roots
  induction roots with
  | nil =>
    intro st
    exact ⟨⟨[], [], by simp [buildRoots], by simp [buildRoots], by simp⟩,
      fun h => by simpa [buildRoots] using h⟩
  | cons rs rest ih =>
    intro st
    obtain ⟨rootKey, schema⟩ := rs
    rw [buildRoots_cons_eq]
    simp only [buildClassCore_eq]
    generalize hR : reserveClassName st.used (toClassName (toClassName rootKey)) = R
    generalize hB : buildChildren cfg (toClassName rootKey) (schemaSize schema) schema
      { st with used := R.2 } = B
    rcases reserveClassName_spec st.used (toClassName (toClassName rootKey)) with
      ⟨hfresh, hgrow, _, _⟩
    rw [hR] at hfresh hgrow
    rcases buildChildren_master cfg (toClassName rootKey) (schemaSize schema) schema
      { st with used := R.2 } le_rfl with ⟨nn1, nb1, ne1, i1, i2, i3, i4, i5, i6⟩
    rw [hB] at i1 i2 i3
    have hndB : st.used.Nodup → B.2.used.Nodup := by
      intro hnd
      rw [← hB]
      apply buildChildren_nodup cfg (toClassName rootKey) (schemaSize schema) schema _ le_rfl
      show R.2.Nodup
      rw [hgrow]
      exact List.nodup_cons.mpr ⟨hfresh, hnd⟩
    rcases ih ⟨B.2.used, B.2.emitted ++ [renderClassBlock cfg schema B.1 R.1],
        B.2.log ++ [⟨true, rootKey, toClassName rootKey, toClassName rootKey,
          toClassName (toClassName rootKey), R.1, st.used, B.1⟩]⟩ with
      ⟨⟨nb2, ne2, j1, j2, j3⟩, jnd⟩
    constructor
    · refine ⟨nb1 ++ [renderClassBlock cfg schema B.1 R.1] ++ nb2,
        ne1 ++ [⟨true, rootKey, toClassName rootKey, toClassName rootKey,
          toClassName (toClassName rootKey), R.1, st.used, B.1⟩] ++ ne2, ?_, ?_, ?_⟩
      · rw [j1]
        simp only
        rw [i2]
        simp only
        simp [List.append_assoc]
      · rw [j2]
        simp only
        rw [i3]
        simp only
        simp [List.append_assoc]
      · intro e he
        rcases List.mem_append.mp he with he | he2
        · rcases List.mem_append.mp he with he | he
          · rcases i6 e he with ⟨ha, hb, hc, hd0, he0⟩
            exact ⟨⟨rootKey, hb⟩, fun hr => absurd hr (by rw [ha]; simp),
              fun _ => by rw [hb]; exact hc, hd0, he0⟩
          · simp only [List.mem_singleton] at he
            subst he
            exact ⟨⟨rootKey, rfl⟩, fun _ => rfl,
              fun hr => absurd hr (by simp), rfl, by rw [← hR]⟩
        · exact j3 e he2
    · intro hnd
      apply jnd
      exact hndB hnd


/-! ## Lemmas: dtype rendering -/

theorem dtypeSizePos (dt : PlDType) : 1 ≤ dt.size := by
  cases dt with
  | scalar n => simp [PlDType.size]
  | list inner => simp [PlDType.size]
  | array inner w => simp [PlDType.size]
  | struct fields => simp [PlDType.size]

theorem fieldsSize_cons (n : String) (d : PlDType) (rest : List (String × PlDType)) :
    fieldsSize ((n, d) :: rest) = 1 + d.size + fieldsSize rest := by
  simp [fieldsSize]

theorem size_le_fieldsSize : ∀ (fields : List (String × PlDType)) (p : String × PlDType),
    p ∈ fields → p.2.size ≤ fieldsSize fields := by
  intro fields
  induction fields with
  | nil => simp
  | cons q rest ih =>
    intro p hp
    obtain ⟨n, d⟩ := q
    rcases List.mem_cons.mp hp with hp | hp
    · subst hp
      rw [fieldsSize_cons]
      show d.size ≤ 1 + d.size + fieldsSize rest
      omega
    · have := ih p hp
      rw [fieldsSize_cons]
      omega

theorem renderDtypeF_irrel : ∀ (f1 f2 : Nat) (dt : PlDType),
    dt.size ≤ f1 → dt.size ≤ f2 → renderDtypeF f1 dt = renderDtypeF f2 dt := by
  intro f1
  induction f1 with
  | zero =>
    intro f2 dt h _
    exact absurd h (by have := dtypeSizePos dt; omega)
  | succ f1 ih =>
    intro f2 dt h1 h2
    cases f2 with
    | zero => exact absurd h2 (by have := dtypeSizePos dt; omega)
    | succ f2 =>
      cases dt with
      | scalar n => rfl
      | list inner =>
        have g1 : inner.size ≤ f1 := by simp [PlDType.size] at h1; omega
        have g2 : inner.size ≤ f2 := by simp [PlDType.size] at h2; omega
        simp only [renderDtypeF, ih f2 inner g1 g2]
      | array inner w =>
        have g1 : inner.size ≤ f1 := by simp [PlDType.size] at h1; omega
        have g2 : inner.size ≤ f2 := by simp [PlDType.size] at h2; omega
        simp only [renderDtypeF, ih f2 inner g1 g2]
      | struct fields =>
        have hf1 : fieldsSize fields ≤ f1 := by simp [PlDType.size] at h1; omega
        have hf2 : fieldsSize fields ≤ f2 := by simp [PlDType.size] at h2; omega
        simp only [renderDtypeF]
        have hcongr : ∀ p ∈ fields,
            "pl.Field(" ++ pyRepr p.1 ++ ", " ++ renderDtypeF f1 p.2 ++ ")" =
            "pl.Field(" ++ pyRepr p.1 ++ ", " ++ renderDtypeF f2 p.2 ++ ")" := by
          intro p hp
          have hs := size_le_fieldsSize fields p hp
          rw [ih f2 p.2 (by omega) (by omega)]
        rw [List.map_congr_left hcongr]

theorem renderPlDtypeExpr_list (inner : PlDType) :
    renderPlDtypeExpr (.list inner) = "pl.List(" ++ renderPlDtypeExpr inner ++ ")" := by
  have hs : (PlDType.list inner).size = inner.size + 1 := by simp [PlDType.size]; omega
  rw [renderPlDtypeExpr, hs]
  simp only [renderDtypeF]
  rfl

theorem renderPlDtypeExpr_array (inner : PlDType) (w : Nat) :
    renderPlDtypeExpr (.array inner w) =
      "pl.Array(" ++ renderPlDtypeExpr inner ++ ", " ++ decRepr w ++ ")" := by
  have hs : (PlDType.array inner w).size = inner.size + 1 := by simp [PlDType.size]; omega
  rw [renderPlDtypeExpr, hs]
  simp only [renderDtypeF]
  rfl

theorem renderPlDtypeExpr_struct (fields : List (String × PlDType)) :
    renderPlDtypeExpr (.struct fields) =
      "pl.Struct([" ++ joinComma (fields.map (fun f =>
        "pl.Field(" ++ pyRepr f.1 ++ ", " ++ renderPlDtypeExpr f.2 ++ ")")) ++ "])" := by
  have hs : (PlDType.struct fields).size = fieldsSize fields + 1 := by
    simp [PlDType.size]; omega
  rw [renderPlDtypeExpr, hs]
  simp only [renderDtypeF]
  have hcongr : ∀ p ∈ fields,
      "pl.Field(" ++ pyRepr p.1 ++ ", " ++ renderDtypeF (fieldsSize fields) p.2 ++ ")" =
      "pl.Field(" ++ pyRepr p.1 ++ ", " ++ renderPlDtypeExpr p.2 ++ ")" := by
    intro p hp
    have hp2 := size_le_fieldsSize fields p hp
    rw [renderPlDtypeExpr, renderDtypeF_irrel (fieldsSize fields) p.2.size p.2 hp2 le_rfl]
  rw [List.map_congr_left hcongr]


/-! ## Lemmas: identifier validation -/

theorem collectBadF_empty_iff : ∀ (fuel : Nat) (tree : List (String × STree))
    (path : List String), schemaSize tree ≤ fuel →
    (collectBadF fuel tree path = [] ↔ hasBadStructKey fuel tree = false) := by
  intro fuel
  induction fuel with
  | zero =>
    intro tree path h
    exact absurd h (by have := schemaSize_pos tree; omega)
  | succ fuel ih =>
    intro tree path h
    cases tree with
    | nil => simp [collectBadF, hasBadStructKey]
    | cons kv rest =>
      obtain ⟨k, v⟩ := kv
      cases v with
      | leaf dt =>
        have hrest : schemaSize rest ≤ fuel := by
          rw [schemaSize_cons] at h
          have := treeSizePos (STree.leaf dt)
          omega
        simpa only [collectBadF, hasBadStructKey] using ih rest path hrest
      | node sub =>
        have hsub : schemaSize sub ≤ fuel := by
          rw [schemaSize_cons, size_node] at h
          omega
        have hrest : schemaSize rest ≤ fuel := by
          rw [schemaSize_cons, size_node] at h
          have := schemaSize_pos sub
          omega
        simp only [collectBadF, hasBadStructKey, List.append_eq_nil, Bool.or_eq_false_iff,
          Bool.not_eq_true']
        constructor
        · rintro ⟨⟨hk, hs⟩, hr⟩
          refine ⟨⟨?_, (ih sub (path ++ [k]) hsub).mp hs⟩, (ih rest path hrest).mp hr⟩
          by_cases hv : isValidIdentifier k = true
          · simp [hv]
          · rw [if_neg hv] at hk
            simp at hk
        · rintro ⟨⟨hk, hs⟩, hr⟩
          refine ⟨⟨?_, (ih sub (path ++ [k]) hsub).mpr hs⟩, (ih rest path hrest).mpr hr⟩
          have hk2 : isValidIdentifier k = true := by simpa using hk
          rw [if_pos hk2]

theorem mem_firstDedup : ∀ (l : List String) (a : String), a ∈ firstDedup l ↔ a ∈ l := by
  intro l
  induction l with
  | nil => simp [firstDedup]
  | cons b rest ih =>
    intro a
    simp only [firstDedup, List.mem_cons, List.mem_filter]
    constructor
    · rintro (h | ⟨h, _⟩)
      · exact Or.inl h
      · exact Or.inr ((ih a).mp h)
    · rintro (h | h)
      · exact Or.inl h
      · by_cases hab : a = b
        · exact Or.inl hab
        · exact Or.inr ⟨(ih a).mpr h, by simpa using hab⟩

theorem firstDedup_nodup : ∀ (l : List String), (firstDedup l).Nodup := by
  intro l
  induction l with
  | nil => simp [firstDedup]
  | cons b rest ih =>
    simp only [firstDedup, List.nodup_cons]
    refine ⟨?_, List.Nodup.filter _ ih⟩
    intro hmem
    have := (List.mem_filter.mp hmem).2
    simp at this

theorem ensureNested_ok_iff (schema : List (String × STree)) :
    ensureNestedKeysAreIdentifiers schema = .ok () ↔
      hasBadStructKey (schemaSize schema) schema = false := by
  rw [ensureNestedKeysAreIdentifiers]
  constructor
  · intro h
    by_cases he : (collectBadF (schemaSize schema) schema []).isEmpty = true
    · exact (collectBadF_empty_iff _ _ [] le_rfl).mp (List.isEmpty_iff.mp he)
    · rw [if_neg he] at h
      cases h
  · intro h
    have := (collectBadF_empty_iff (schemaSize schema) schema [] le_rfl).mpr h
    rw [if_pos (by simp [this])]

theorem ensureNested_error_iff (schema : List (String × STree)) (e : String) :
    ensureNestedKeysAreIdentifiers schema = .error e ↔
      hasBadStructKey (schemaSize schema) schema = true ∧
      e = invalidIdentsMsg (firstDedup (collectBadF (schemaSize schema) schema [])) := by
  rw [ensureNestedKeysAreIdentifiers]
  constructor
  · intro h
    by_cases he : (collectBadF (schemaSize schema) schema []).isEmpty = true
    · rw [if_pos he] at h
      cases h
    · rw [if_neg he] at h
      refine ⟨?_, by cases h; rfl⟩
      cases hb : hasBadStructKey (schemaSize schema) schema with
      | true => rfl
      | false =>
        have := (collectBadF_empty_iff (schemaSize schema) schema [] le_rfl).mpr hb
        rw [this] at he
        simp at he
  · rintro ⟨hb, rfl⟩
    have hne : collectBadF (schemaSize schema) schema [] ≠ [] := by
      intro hnil
      rw [(collectBadF_empty_iff (schemaSize schema) schema [] le_rfl).mp hnil] at hb
      cases hb
    rw [if_neg (by simpa using hne)]

/-- `_schemas_to_module`'s validation loop raises for the first root whose
schema has an invalid struct key, with that root's complete deduplicated
path list; later roots are not consulted. -/
theorem validateRoots_spec : ∀ (roots : List (String × List (String × STree))),
    (validateRoots roots = .ok () ↔
      ∀ r ∈ roots, hasBadStructKey (schemaSize r.2) r.2 = false) ∧
    (∀ e, validateRoots roots = .error e →
      ∃ pre r post, roots = pre ++ r :: post ∧
        (∀ q ∈ pre, hasBadStructKey (schemaSize q.2) q.2 = false) ∧
        hasBadStructKey (schemaSize r.2) r.2 = true ∧
        e = invalidIdentsMsg (firstDedup (collectBadF (schemaSize r.2) r.2 []))) := by
  intro roots
  induction roots with
  | nil =>
    constructor
    · simp [validateRoots]
    · intro e h
      cases h
  | cons rs rest ih =>
    obtain ⟨rk, schema⟩ := rs
    constructor
    · constructor
      · intro h r hr
        rw [validateRoots] at h
        cases hv : ensureNestedKeysAreIdentifiers schema with
        | error e2 => rw [hv] at h; cases h
        | ok u =>
          rcases List.mem_cons.mp hr with hr | hr
          · subst hr
            obtain ⟨⟩ := u
            exact (ensureNested_ok_iff schema).mp hv
          · rw [hv] at h
            exact (ih.1.mp h) r hr
      · intro h
        rw [validateRoots]
        have h1 := h (rk, schema) (by simp)
        rw [(ensureNested_ok_iff schema).mpr h1]
        exact ih.1.mpr (fun r hr => h r (by simp [hr]))
    · intro e h
      rw [validateRoots] at h
      cases hv : ensureNestedKeysAreIdentifiers schema with
      | error e2 =>
        rw [hv] at h
        cases h
        rcases (ensureNested_error_iff schema e).mp hv with ⟨hb, he⟩
        exact ⟨[], (rk, schema), rest, by simp, by simp, hb, he⟩
      | ok u =>
        obtain ⟨⟩ := u
        rw [hv] at h
        rcases ih.2 e h with ⟨pre, r, post, hsplit, hpre, hbad, hmsg⟩
        refine ⟨(rk, schema) :: pre, r, post, by simp [hsplit], ?_, hbad, hmsg⟩
        intro q hq
        rcases List.mem_cons.mp hq with hq | hq
        · subst hq
          exact (ensureNested_ok_iff schema).mp hv
        · exact hpre q hq


theorem renderPlDtypeExpr_scalar (n : String) :
    renderPlDtypeExpr (.scalar n) = "pl." ++ n := by
  have hs : (PlDType.scalar n).size = 0 + 1 := by simp [PlDType.size]
  rw [renderPlDtypeExpr, hs]
  rfl

/-- Unfolding of a successful `_schemas_to_module` call. -/
theorem schemasToModuleCore_ok {roots : List (String × List (String × STree))}
    {inc : IncludeDtypes} {an : Option Bool} {multi : Bool} {m : ModuleOut}
    (h : schemasToModuleCore roots inc an multi = .ok m) :
    validateRoots roots = .ok () ∧
    m.state = (buildRoots ⟨inc, an, multi⟩ roots ⟨[], [], []⟩).2 ∧
    m.rootNames = (buildRoots ⟨inc, an, multi⟩ roots ⟨[], [], []⟩).1 ∧
    m.text = String.intercalate "\n" (moduleHeader inc ++
      ["__all__ = [" ++ joinComma ((buildRoots ⟨inc, an, multi⟩ roots ⟨[], [], []⟩).1.map pyRepr)
        ++ "]", ""] ++ (buildRoots ⟨inc, an, multi⟩ roots ⟨[], [], []⟩).2.emitted) := by
  rw [schemasToModuleCore] at h
  cases hv : validateRoots roots with
  | error e =>
    rw [hv] at h
    cases h
  | ok u =>
    obtain ⟨⟩ := u
    rw [hv] at h
    simp only [Except.ok.injEq] at h
    subst h
    exact ⟨rfl, rfl, rfl, rfl⟩


/-! ## Lemmas: leaf field rendering -/

theorem renderVcolCtor_posargs_nil (dt : PlDType) : (renderVcolCtorAndPosargs dt).2 = [] := by
  unfold renderVcolCtorAndPosargs
  dsimp only
  split
  · rfl
  · split
    · rfl
    · rfl

theorem head_data_name (k : String) : ("name=\"" ++ k ++ "\"").data.head? = some 'n' := by
  rw [String.data_append, String.data_append]
  rfl

theorem head_data_dtype (x : String) : ("dtype=" ++ x).data.head? = some 'd' := by
  rw [String.data_append]
  rfl

theorem head_data_allow (b : Bool) : ("allow_nulls=" ++ pyBool b).data.head? = some 'a' := by
  rw [String.data_append]
  rfl

theorem name_kw_ne_dtype (k x : String) : ("name=\"" ++ k ++ "\"") ≠ ("dtype=" ++ x) := by
  intro h
  have h2 := congrArg (fun s => s.data.head?) h
  simp only at h2
  rw [head_data_name, head_data_dtype] at h2
  simp at h2

theorem name_kw_not_mem_allow (k : String) (an : Option Bool) :
    ("name=\"" ++ k ++ "\"") ∉ leafAllowKw an := by
  cases an with
  | none => simp [leafAllowKw]
  | some b =>
    simp only [leafAllowKw, List.mem_singleton]
    intro h
    have h2 := congrArg (fun s => s.data.head?) h
    simp only at h2
    rw [head_data_name, head_data_allow] at h2
    simp at h2

theorem paren_empty (h : String) : h ++ "()" = h ++ "(" ++ joinComma [] ++ ")" := by
  show h ++ "()" = h ++ "(" ++ "" ++ ")"
  rw [String.append_empty, String.append_assoc]
  rfl

/-- Every leaf call, in every mode, is a constructor head applied to a
keyword list that begins with an optional dtype argument, then the optional
`name="<raw key>"` argument, then the optional nullability argument; the
dtype part can never be the name keyword. -/
theorem leafCall_shape (cfg : Config) (attr k : String) (dt : PlDType) :
    ∃ h pre, leafCall cfg attr k dt =
      h ++ "(" ++ joinComma (pre ++ (leafNameKw attr k ++ leafAllowKw cfg.allowNulls)) ++ ")" ∧
      ("name=\"" ++ k ++ "\"") ∉ pre := by
  cases hinc : cfg.includeDtypes with
  | «on» =>
    refine ⟨(renderVcolCtorAndPosargs dt).1, [], ?_, by simp⟩
    simp only [leafCall, hinc, renderVcolCtor_posargs_nil, List.isEmpty_nil, Bool.not_true,
      Bool.false_and, Bool.false_eq_true, if_false, List.nil_append]
  | asValues =>
    by_cases hla : (dtypeName dt == "List" || dtypeName dt == "Array") = true
    · refine ⟨(renderVcolCtorAndPosargs dt).1, ["dtype=" ++ renderPlDtypeExpr dt], ?_, ?_⟩
      · simp only [leafCall, hinc, hla, if_true, List.singleton_append]
      · simp only [List.mem_singleton]
        exact name_kw_ne_dtype k (renderPlDtypeExpr dt)
    · refine ⟨"pg.vcol", ["dtype=" ++ renderPlDtypeExpr dt], ?_, ?_⟩
      · simp only [leafCall, hinc, hla, Bool.false_eq_true, if_false, List.singleton_append]
        rw [show ("pg.vcol" ++ "(" : String) = "pg.vcol(" from rfl]
      · simp only [List.mem_singleton]
        exact name_kw_ne_dtype k (renderPlDtypeExpr dt)
  | off =>
    by_cases hla : (dtypeName dt == "List" || dtypeName dt == "Array") = true
    · by_cases he : (leafNameKw attr k ++ leafAllowKw cfg.allowNulls).isEmpty = true
      · refine ⟨(renderVcolCtorAndPosargs dt).1, [], ?_, by simp⟩
        simp only [leafCall, hinc, hla, if_true, he]
        rw [List.isEmpty_iff.mp he, List.nil_append]
        exact paren_empty _
      · refine ⟨(renderVcolCtorAndPosargs dt).1, [], ?_, by simp⟩
        simp only [leafCall, hinc, hla, if_true, he, Bool.false_eq_true, if_false,
          List.nil_append]
    · by_cases he : (leafNameKw attr k ++ leafAllowKw cfg.allowNulls).isEmpty = true
      · refine ⟨"pg.vcol", [], ?_, by simp⟩
        simp only [leafCall, hinc, hla, Bool.false_eq_true, if_false, he, if_true]
        rw [List.isEmpty_iff.mp he, List.nil_append]
        decide
      · refine ⟨"pg.vcol", [], ?_, by simp⟩
        simp only [leafCall, hinc, hla, he, Bool.false_eq_true, if_false, List.nil_append]
        rw [show ("pg.vcol" ++ "(" : String) = "pg.vcol(" from rfl]

theorem leafNameKw_eq_iff (attr k : String) :
    (attr = k → leafNameKw attr k = []) ∧
    (attr ≠ k → leafNameKw attr k = ["name=\"" ++ k ++ "\""]) := by
  constructor
  · intro h
    simp [leafNameKw, h]
  · intro h
    simp only [leafNameKw, beq_iff_eq, if_neg h]


/-! ## Claim theorems -/

/-- C5: In value-expression mode (`include_dtypes="as_values"`), every leaf
data-type descriptor renders as a recursively built expression: a scalar tag
renders directly (`pl.<Tag>`), a list as `pl.List(<inner>)`, a fixed-size
array as `pl.Array(<inner>, <width>)`, and a struct-valued leaf as
`pl.Struct([pl.Field(<name>, <inner>), ...])` with exactly one field entry per
struct member in schema field order; a struct leaf is emitted through
`pg.vcol(dtype=<expression>, ...)`. -/
theorem claim_C5_value_expression_rendering :
    (∀ n, renderPlDtypeExpr (.scalar n) = "pl." ++ n) ∧
    (∀ inner, renderPlDtypeExpr (.list inner) = "pl.List(" ++ renderPlDtypeExpr inner ++ ")") ∧
    (∀ inner w, renderPlDtypeExpr (.array inner w) =
      "pl.Array(" ++ renderPlDtypeExpr inner ++ ", " ++ decRepr w ++ ")") ∧
    (∀ fields, renderPlDtypeExpr (.struct fields) =
      "pl.Struct([" ++ joinComma (fields.map (fun f =>
        "pl.Field(" ++ pyRepr f.1 ++ ", " ++ renderPlDtypeExpr f.2 ++ ")")) ++ "])" ∧
      (fields.map (fun f =>
        "pl.Field(" ++ pyRepr f.1 ++ ", " ++ renderPlDtypeExpr f.2 ++ ")")).length =
        fields.length) ∧
    (∀ cfg attr k fields, cfg.includeDtypes = IncludeDtypes.asValues →
      leafCall cfg attr k (.struct fields) =
        "pg.vcol(" ++ joinComma (("dtype=" ++ renderPlDtypeExpr (.struct fields)) ::
          (leafNameKw attr k ++ leafAllowKw cfg.allowNulls)) ++ ")") ∧
    renderPlDtypeExpr (.list (.struct [("a", .scalar "Int64"), ("b", .scalar "String")])) =
      "pl.List(pl.Struct([pl.Field(\x27a\x27, pl.Int64), pl.Field(\x27b\x27, pl.String)]))" := by
  refine ⟨renderPlDtypeExpr_scalar, renderPlDtypeExpr_list, renderPlDtypeExpr_array,
    fun fields => ⟨renderPlDtypeExpr_struct fields, by simp⟩, ?_, by rfl⟩
  intro cfg attr k fields h
  simp only [leafCall, h, dtypeName]
  rfl

/-- Witness for C5: the hypothesis `include_dtypes = "as_values"` discharged
at a concrete configuration and struct leaf. -/
theorem claim_C5_value_expression_rendering_witness :
    leafCall ⟨IncludeDtypes.asValues, none, false⟩ "a" "a"
        (.struct [("b", .scalar "Int64")]) =
      "pg.vcol(" ++ joinComma (("dtype=" ++
        renderPlDtypeExpr (.struct [("b", .scalar "Int64")])) ::
          (leafNameKw "a" "a" ++ leafAllowKw none)) ++ ")" :=
  claim_C5_value_expression_rendering.2.2.2.2.1 ⟨IncludeDtypes.asValues, none, false⟩
    "a" "a" [("b", .scalar "Int64")] rfl

/-- C10: two distinct mapping keys whose naming-convention conversions agree
("my_data" and "my.data" both convert to "MyData") collapse to one root: the
normalizer keys the root set by the converted name, the later entry replaces
the earlier one, the emitted module contains classes and an export entry for
only the later dataset, and no error is raised. -/
theorem claim_C10_duplicate_converted_root_keys :
    toClassName "my_data" = "MyData" ∧
    toClassName "my.data" = "MyData" ∧
    ((normalizeInput (.mapping [("my_data", [("a", STree.leaf (.scalar "Int64"))]),
        ("my.data", [("b", STree.leaf (.scalar "Utf8"))])]) "DatasetModel").1.map Prod.fst =
      ["MyData"]) ∧
    (normalizeInput (.mapping [("my_data", [("a", STree.leaf (.scalar "Int64"))]),
        ("my.data", [("b", STree.leaf (.scalar "Utf8"))])]) "DatasetModel").2 = true ∧
    (collectModelBlueprint (.mapping [("my_data", [("a", STree.leaf (.scalar "Int64"))]),
        ("my.data", [("b", STree.leaf (.scalar "Utf8"))])]) none none "DatasetModel"
        .off (some false)).result =
      .ok (some ("import paguro as pg\nfrom paguro.models import vfm\n\n__all__ = " ++
        "[\x27MyData\x27]\n\nclass MyData(vfm.VFrameModel):\n" ++
        "    b = pg.vcol(allow_nulls=False)\n")) :=
  ⟨rfl, rfl, rfl, rfl, rfl⟩

/-- C9 (code bug in `_to_class_name`): `re.split(r"_+")` discards the guard
underscore that `_sanitize_ident` prefixes to digit-leading names, so emitted
class names can start with a digit and the generated module is not valid
Python.  The struct key `"_1"` passes the identifier validator yet produces
`class 1(...)`; the root key `"1a"` produces `class 1a(...)`. -/
theorem claim_C9_emitted_class_names :
    isValidIdentifier "_1" = true ∧
    toClassName "_1" = "1" ∧
    pyIsIdentifier "1" = false ∧
    toClassName "1a" = "1a" ∧
    pyIsIdentifier "1a" = false ∧
    (collectModelBlueprint (.mapping [("1a", [("x", STree.leaf (.scalar "Int64"))])]) none none
        "DatasetModel" .off (some false)).result =
      .ok (some ("import paguro as pg\nfrom paguro.models import vfm\n\n__all__ = " ++
        "[\x271a\x27]\n\nclass 1a(vfm.VFrameModel):\n" ++
        "    x = pg.vcol(allow_nulls=False)\n")) ∧
    (collectModelBlueprint (.single [("_1", STree.node [])]) none none "Model" .off
        (some false)).result =
      .ok (some ("import paguro as pg\nfrom paguro.models import vfm\n\n__all__ = " ++
        "[\x27Model\x27]\n\nclass 1(vfm.VFrameModel):\n    pass\n\n" ++
        "class Model(vfm.VFrameModel):\n    _1: 1\n")) :=
  ⟨rfl, rfl, rfl, rfl, rfl, rfl, rfl⟩

set_option maxRecDepth 8000 in
/-- C2 counterexample: with two roots each containing an invalid struct key,
the raised error lists only the first root's offending path ("bad key"); the
second root's offender ("worse key") is a genuine violation but does not
appear in the message, so the error does not list every offending path of the
input. -/
theorem claim_C2_counterexample :
    validateRoots [("RootA", [("bad key", STree.node [])]),
        ("RootB", [("worse key", STree.node [])])] =
      .error ("Invalid identifiers: Struct column name must be a valid Python identifier. " ++
        "bad key\nPlease ensure the name is a valid python identifier.") ∧
    hasBadStructKey (schemaSize [("worse key", STree.node [])])
      [("worse key", STree.node [])] = true ∧
    collectBadF (schemaSize [("worse key", STree.node [])])
      [("worse key", STree.node [])] [] = ["worse key"] ∧
    ¬ ("worse key".data <:+:
      ("Invalid identifiers: Struct column name must be a valid Python identifier. " ++
        "bad key\nPlease ensure the name is a valid python identifier.").data) ∧
    (collectModelBlueprint (.mapping [("RootA", [("bad key", STree.node [])]),
        ("RootB", [("worse key", STree.node [])])]) none none "DatasetModel" .off
        (some false)).result =
      .error (.valueError
        ("Invalid identifiers: Struct column name must be a valid Python identifier. " ++
          "bad key\nPlease ensure the name is a valid python identifier.")) :=
  ⟨rfl, rfl, rfl, by decide, rfl⟩

/-- C2 (amended): compilation fails with a single error listing every
offending dotted path of the first root (in root order) that contains any,
deduplicated keeping first occurrences; offenders of later roots are not
listed.  The error is decided solely by struct-valued keys: a leaf key never
contributes, however illegal. -/
theorem claim_C2_invalid_identifier_error :
    (∀ roots e, validateRoots roots = .error e →
      ∃ pre r post, roots = pre ++ r :: post ∧
        (∀ q ∈ pre, hasBadStructKey (schemaSize q.2) q.2 = false) ∧
        hasBadStructKey (schemaSize r.2) r.2 = true ∧
        e = invalidIdentsMsg (firstDedup (collectBadF (schemaSize r.2) r.2 []))) ∧
    (∀ roots, validateRoots roots = .ok () ↔
      ∀ r ∈ roots, hasBadStructKey (schemaSize r.2) r.2 = false) ∧
    (∀ fuel k dt rest, hasBadStructKey (fuel + 1) ((k, STree.leaf dt) :: rest) =
      hasBadStructKey fuel rest) ∧
    (∀ l, (firstDedup l).Nodup ∧ ∀ a, a ∈ firstDedup l ↔ a ∈ l) := by
  refine ⟨fun roots e h => (validateRoots_spec roots).2 e h,
    fun roots => (validateRoots_spec roots).1, fun fuel k dt rest => rfl,
    fun l => ⟨firstDedup_nodup l, fun a => mem_firstDedup l a⟩⟩

/-- Witness for C2 (amended): a schema whose struct keys are all valid passes
the validator, the membership hypothesis discharged concretely. -/
theorem claim_C2_invalid_identifier_error_witness :
    validateRoots [("R", [("a", STree.node [])])] = .ok () :=
  (claim_C2_invalid_identifier_error.2.1 [("R", [("a", STree.node [])])]).mpr (by decide)

/-- C3 counterexample: for sibling leaf keys "a", "a.", "a_2" (in that
order), the third attribute is "a_2_2", not the sanitization "a_2" of its raw
key, and its emitted field carries `name="a_2"` even though sanitization left
the key unchanged — both halves of the claim fail under collisions. -/
theorem claim_C3_counterexample :
    sanitizeIdent "a_2" = "a_2" ∧
    (classLines ⟨IncludeDtypes.off, some false, false⟩ []
        [("a", STree.leaf (.scalar "Int64")), ("a.", STree.leaf (.scalar "Int64")),
         ("a_2", STree.leaf (.scalar "Int64"))] []).map (fun p => p.1) =
      ["a", "a_2", "a_2_2"] ∧
    (classLines ⟨IncludeDtypes.off, some false, false⟩ []
        [("a", STree.leaf (.scalar "Int64")), ("a.", STree.leaf (.scalar "Int64")),
         ("a_2", STree.leaf (.scalar "Int64"))] []).map (fun p => p.2) =
      ["    a = pg.vcol(allow_nulls=False)",
       "    a_2 = pg.vcol(name=\"a.\", allow_nulls=False)",
       "    a_2_2 = pg.vcol(name=\"a_2\", allow_nulls=False)"] :=
  ⟨rfl, rfl, rfl⟩

/-- C3 (amended): a leaf field's attribute is the reserved name — the
sanitization of the raw key, or that plus the `_N` collision suffix — and the
emitted field carries `name="<raw key>"` exactly when the *reserved* attribute
differs from the raw key (so also under collisions); with no collision the
attribute is exactly the sanitization, recovering the claim. -/
theorem claim_C3_leaf_field_rendering :
    (∀ cfg childMap k dt rest used,
      classLines cfg childMap ((k, STree.leaf dt) :: rest) used =
        ((reserveAttrName used k).1,
          "    " ++ (reserveAttrName used k).1 ++ " = " ++
            leafCall cfg (reserveAttrName used k).1 k dt) ::
          classLines cfg childMap rest (reserveAttrName used k).2) ∧
    (∀ used k, sanitizeIdent k ∉ used → (reserveAttrName used k).1 = sanitizeIdent k) ∧
    (∀ attr k, (attr = k → leafNameKw attr k = []) ∧
      (attr ≠ k → leafNameKw attr k = ["name=\"" ++ k ++ "\""])) ∧
    (∀ cfg attr k dt, ∃ h pre,
      leafCall cfg attr k dt =
        h ++ "(" ++ joinComma (pre ++ (leafNameKw attr k ++ leafAllowKw cfg.allowNulls)) ++ ")" ∧
      (("name=\"" ++ k ++ "\"") ∈ pre ++ (leafNameKw attr k ++ leafAllowKw cfg.allowNulls) ↔
        attr ≠ k)) := by
  refine ⟨fun cfg childMap k dt rest used => rfl,
    fun used k h => (reserveAttrName_spec used k).2.2.1 h,
    leafNameKw_eq_iff, ?_⟩
  intro cfg attr k dt
  rcases leafCall_shape cfg attr k dt with ⟨h, pre, heq, hpre⟩
  refine ⟨h, pre, heq, ?_⟩
  constructor
  · intro hmem hak
    rcases List.mem_append.mp hmem with hm | hm
    · exact hpre hm
    · rcases List.mem_append.mp hm with hm | hm
      · rw [(leafNameKw_eq_iff attr k).1 hak] at hm
        simp at hm
      · exact name_kw_not_mem_allow k cfg.allowNulls hm
  · intro hak
    rw [(leafNameKw_eq_iff attr k).2 hak]
    simp

/-- Witness for C3 (amended): freshness hypothesis discharged at a concrete
key with an empty used set. -/
theorem claim_C3_leaf_field_rendering_witness :
    (reserveAttrName [] "zip code").1 = sanitizeIdent "zip code" ∧
    sanitizeIdent "zip code" = "zip_code" :=
  ⟨claim_C3_leaf_field_rendering.2.1 [] "zip code" (by decide), by decide⟩


theorem writer_notPy {p : PathSpec} {destBefore : Option String} {bp : String}
    (h : p.hasPySuffix = false) :
    writeModelBlueprintToPythonFile bp (some p) destBefore =
      ⟨[.checkedSuffix], destBefore,
        .error (.valueError ("Expected a \x27.py\x27 path, got: " ++ p.pathStr))⟩ := by
  simp only [writeModelBlueprintToPythonFile, h, Bool.not_false, if_true]

theorem writer_parentMissing {p : PathSpec} {destBefore : Option String} {bp : String}
    (hs : p.hasPySuffix = true) (hp : p.parentExists = false) :
    writeModelBlueprintToPythonFile bp (some p) destBefore =
      ⟨[.checkedSuffix, .checkedParent], destBefore,
        .error (.fileNotFoundError ("Parent folder must already exist: " ++ p.parentStr))⟩ := by
  simp only [writeModelBlueprintToPythonFile, hs, hp, Bool.not_true, Bool.not_false,
    Bool.false_eq_true, if_false, Bool.true_or, if_true]

theorem writer_destExists {p : PathSpec} {c bp : String}
    (hs : p.hasPySuffix = true) (hpe : p.parentExists = true) (hpd : p.parentIsDir = true) :
    writeModelBlueprintToPythonFile bp (some p) (some c) =
      ⟨[.checkedSuffix, .checkedParent, .checkedExists], some c,
        .error (.fileExistsError ("Refusing to overwrite existing file: " ++ p.pathStr))⟩ := by
  simp only [writeModelBlueprintToPythonFile, hs, hpe, hpd, Bool.not_true, Bool.false_eq_true,
    if_false, Bool.or_self, Option.isSome_some, if_true]

theorem writer_success {p : PathSpec} {bp : String}
    (hs : p.hasPySuffix = true) (hpe : p.parentExists = true) (hpd : p.parentIsDir = true) :
    writeModelBlueprintToPythonFile bp (some p) none =
      ⟨[.checkedSuffix, .checkedParent, .checkedExists, .wroteFile], some bp, .ok none⟩ := by
  simp only [writeModelBlueprintToPythonFile, hs, hpe, hpd, Bool.not_true, Bool.false_eq_true,
    if_false, Bool.or_self, Option.isSome_none, if_true]

theorem collectModelBlueprint_ok_none {data : BInput} {destBefore : Option String}
    {rcn : String} {inc : IncludeDtypes} {an : Option Bool} {bp : String}
    (hok : schemasToModule (normalizeInput data rcn).1 inc an
      (normalizeInput data rcn).2 = .ok bp) :
    collectModelBlueprint data none destBefore rcn inc an =
      ⟨[.assembledText], destBefore, .ok (some bp)⟩ := by
  simp only [collectModelBlueprint, hok]

theorem collectModelBlueprint_ok_some {data : BInput} {p : PathSpec}
    {destBefore : Option String} {rcn : String} {inc : IncludeDtypes} {an : Option Bool}
    {bp : String}
    (hok : schemasToModule (normalizeInput data rcn).1 inc an
      (normalizeInput data rcn).2 = .ok bp) :
    collectModelBlueprint data (some p) destBefore rcn inc an =
      ⟨.assembledText :: (writeModelBlueprintToPythonFile bp (some p) destBefore).trace,
        (writeModelBlueprintToPythonFile bp (some p) destBefore).fsAfter,
        (writeModelBlueprintToPythonFile bp (some p) destBefore).result⟩ := by
  simp only [collectModelBlueprint, hok]

/-- C7: file materialization raises a distinct, specific error per
bad-destination case — `ValueError` for a non-`.py` suffix, `FileNotFoundError`
for a missing parent directory, `FileExistsError` for a pre-existing
destination — and in every failure performs no write, leaving the existing
destination contents unchanged; on success it writes the text once and
returns `None`; with no destination path the call returns the assembled
text. -/
theorem claim_C7_file_materialization :
    (∀ data destBefore rcn inc an bp,
      schemasToModule (normalizeInput data rcn).1 inc an (normalizeInput data rcn).2 = .ok bp →
      (collectModelBlueprint data none destBefore rcn inc an).result = .ok (some bp) ∧
      (collectModelBlueprint data none destBefore rcn inc an).fsAfter = destBefore) ∧
    (∀ data p destBefore rcn inc an bp,
      schemasToModule (normalizeInput data rcn).1 inc an (normalizeInput data rcn).2 = .ok bp →
      p.hasPySuffix = false →
      (collectModelBlueprint data (some p) destBefore rcn inc an).result =
        .error (.valueError ("Expected a \x27.py\x27 path, got: " ++ p.pathStr)) ∧
      (collectModelBlueprint data (some p) destBefore rcn inc an).fsAfter = destBefore) ∧
    (∀ data p destBefore rcn inc an bp,
      schemasToModule (normalizeInput data rcn).1 inc an (normalizeInput data rcn).2 = .ok bp →
      p.hasPySuffix = true → p.parentExists = false →
      (collectModelBlueprint data (some p) destBefore rcn inc an).result =
        .error (.fileNotFoundError ("Parent folder must already exist: " ++ p.parentStr)) ∧
      (collectModelBlueprint data (some p) destBefore rcn inc an).fsAfter = destBefore) ∧
    (∀ data p c rcn inc an bp,
      schemasToModule (normalizeInput data rcn).1 inc an (normalizeInput data rcn).2 = .ok bp →
      p.hasPySuffix = true → p.parentExists = true → p.parentIsDir = true →
      (collectModelBlueprint data (some p) (some c) rcn inc an).result =
        .error (.fileExistsError ("Refusing to overwrite existing file: " ++ p.pathStr)) ∧
      (collectModelBlueprint data (some p) (some c) rcn inc an).fsAfter = some c) ∧
    (∀ data p rcn inc an bp,
      schemasToModule (normalizeInput data rcn).1 inc an (normalizeInput data rcn).2 = .ok bp →
      p.hasPySuffix = true → p.parentExists = true → p.parentIsDir = true →
      (collectModelBlueprint data (some p) none rcn inc an).result = .ok none ∧
      (collectModelBlueprint data (some p) none rcn inc an).fsAfter = some bp ∧
      (collectModelBlueprint data (some p) none rcn inc an).trace =
        [.assembledText, .checkedSuffix, .checkedParent, .checkedExists, .wroteFile]) ∧
    (∀ m1 m2, PyError.valueError m1 ≠ PyError.fileNotFoundError m2) ∧
    (∀ m1 m2, PyError.valueError m1 ≠ PyError.fileExistsError m2) ∧
    (∀ m1 m2, PyError.fileNotFoundError m1 ≠ PyError.fileExistsError m2) := by
  refine ⟨?_, ?_, ?_, ?_, ?_, ?_, ?_, ?_⟩
  · intro data destBefore rcn inc an bp hok
    rw [collectModelBlueprint_ok_none hok]
    exact ⟨rfl, rfl⟩
  · intro data p destBefore rcn inc an bp hok hs
    rw [collectModelBlueprint_ok_some hok, writer_notPy hs]
    exact ⟨rfl, rfl⟩
  · intro data p destBefore rcn inc an bp hok hs hp
    rw [collectModelBlueprint_ok_some hok, writer_parentMissing hs hp]
    exact ⟨rfl, rfl⟩
  · intro data p c rcn inc an bp hok hs hpe hpd
    rw [collectModelBlueprint_ok_some hok, writer_destExists hs hpe hpd]
    exact ⟨rfl, rfl⟩
  · intro data p rcn inc an bp hok hs hpe hpd
    rw [collectModelBlueprint_ok_some hok, writer_success hs hpe hpd]
    exact ⟨rfl, rfl, rfl⟩
  · intro m1 m2 h
    cases h
  · intro m1 m2 h
    cases h
  · intro m1 m2 h
    cases h

/-- Witness for C7: the wrong-suffix failure at a concrete input, the module
hypothesis discharged by computation. -/
theorem claim_C7_file_materialization_witness :
    (collectModelBlueprint (.single [("a", STree.leaf (.scalar "Int64"))])
        (some ⟨"/tmp/x.txt", "/tmp", false, true, true⟩) none "Model" .off
        (some false)).result =
      .error (.valueError "Expected a \x27.py\x27 path, got: /tmp/x.txt" ) :=
  (claim_C7_file_materialization.2.1 (.single [("a", STree.leaf (.scalar "Int64"))])
    ⟨"/tmp/x.txt", "/tmp", false, true, true⟩ none "Model" .off (some false)
    ("import paguro as pg\nfrom paguro.models import vfm\n\n__all__ = [\x27Model\x27]\n\n" ++
      "class Model(vfm.VFrameModel):\n    a = pg.vcol(allow_nulls=False)\n")
    rfl rfl).1

/-- C8 counterexample: compiling into a path whose parent directory does not
exist does fail — but the very first event of the run is the text assembly:
the module text is generated before the destination check, refuting "fails
before any output text is generated". -/
theorem claim_C8_counterexample :
    (collectModelBlueprint (.single [("a", STree.leaf (.scalar "Int64"))])
        (some ⟨"/tmp/missing/m.py", "/tmp/missing", true, false, false⟩) none "Model"
        .off (some false)).trace = [.assembledText, .checkedSuffix, .checkedParent] ∧
    Ev.assembledText ∈ (collectModelBlueprint (.single [("a", STree.leaf (.scalar "Int64"))])
        (some ⟨"/tmp/missing/m.py", "/tmp/missing", true, false, false⟩) none "Model"
        .off (some false)).trace ∧
    (collectModelBlueprint (.single [("a", STree.leaf (.scalar "Int64"))])
        (some ⟨"/tmp/missing/m.py", "/tmp/missing", true, false, false⟩) none "Model"
        .off (some false)).result =
      .error (.fileNotFoundError "Parent folder must already exist: /tmp/missing") := by
  refine ⟨rfl, ?_, rfl⟩
  rw [show (collectModelBlueprint (.single [("a", STree.leaf (.scalar "Int64"))])
      (some ⟨"/tmp/missing/m.py", "/tmp/missing", true, false, false⟩) none "Model"
      .off (some false)).trace = [.assembledText, .checkedSuffix, .checkedParent] from rfl]
  simp

/-- C8 (amended): with a `.py` destination whose parent directory does not
exist, the compile call fails with `FileNotFoundError` before any write
occurs and leaves the destination untouched — but text assembly precedes the
destination checks (the check does not precede text assembly). -/
theorem claim_C8_destination_check_order :
    ∀ data p destBefore rcn inc an bp,
      schemasToModule (normalizeInput data rcn).1 inc an (normalizeInput data rcn).2 = .ok bp →
      p.hasPySuffix = true → p.parentExists = false →
      (collectModelBlueprint data (some p) destBefore rcn inc an).trace =
        [.assembledText, .checkedSuffix, .checkedParent] ∧
      (collectModelBlueprint data (some p) destBefore rcn inc an).result =
        .error (.fileNotFoundError ("Parent folder must already exist: " ++ p.parentStr)) ∧
      Ev.wroteFile ∉ (collectModelBlueprint data (some p) destBefore rcn inc an).trace ∧
      (collectModelBlueprint data (some p) destBefore rcn inc an).fsAfter = destBefore := by
  intro data p destBefore rcn inc an bp hok hs hp
  rw [collectModelBlueprint_ok_some hok, writer_parentMissing hs hp]
  refine ⟨rfl, rfl, ?_, rfl⟩
  simp

/-- Witness for C8 (amended), at a concrete schema and path. -/
theorem claim_C8_destination_check_order_witness :
    (collectModelBlueprint (.single [("a", STree.leaf (.scalar "Int64"))])
        (some ⟨"/tmp/missing/m.py", "/tmp/missing", true, false, false⟩) (some "old") "Model"
        .off (some false)).fsAfter = some "old" :=
  (claim_C8_destination_check_order (.single [("a", STree.leaf (.scalar "Int64"))])
    ⟨"/tmp/missing/m.py", "/tmp/missing", true, false, false⟩ (some "old") "Model" .off
    (some false)
    ("import paguro as pg\nfrom paguro.models import vfm\n\n__all__ = [\x27Model\x27]\n\n" ++
      "class Model(vfm.VFrameModel):\n    a = pg.vcol(allow_nulls=False)\n")
    rfl rfl rfl).2.2.2


/-- C6: class bodies are emitted in post-order.  Every class construction
(`build_class`) appends its own body block strictly after all blocks emitted
while processing its children; every struct child's complete class body (a
`renderClassBlock` for that child's actual class name, the very name the
parent's annotation line references through the child map) is among those
earlier blocks; and the emitted list only ever grows by appending, so these
positions persist in the final module. -/
theorem claim_C6_post_order_emission :
    (∀ (cfg : Config) (rootName : String) (fuel : Nat) (isRoot : Bool)
      (key suggested : String) (sub : List (String × STree)) (st : BuildState),
      schemaSize sub ≤ fuel →
      ∃ childMap newBlocks,
        (buildClassCore cfg rootName fuel isRoot key suggested sub st).2.emitted =
          st.emitted ++ newBlocks ++ [renderClassBlock cfg sub childMap
            (buildClassCore cfg rootName fuel isRoot key suggested sub st).1] ∧
        childMap.map Prod.fst = structKeys sub ∧
        (∀ p ∈ childMap, ∃ b ∈ newBlocks, ∃ s2 m2, b = renderClassBlock cfg s2 m2 p.2)) ∧
    (∀ (cfg : Config) (roots : List (String × List (String × STree))) (st : BuildState),
      ∃ nb, (buildRoots cfg roots st).2.emitted = st.emitted ++ nb) := by
  constructor
  · intro cfg rootName fuel isRoot key suggested sub st h
    rcases buildChildren_master cfg rootName fuel sub
      { st with used := (reserveClassName st.used (toClassName suggested)).2 } h with
      ⟨nn1, nb1, ne1, i1, i2, i3, i4, i5, i6⟩
    refine ⟨(buildChildren cfg rootName fuel sub
      { st with used := (reserveClassName st.used (toClassName suggested)).2 }).1, nb1,
      ?_, i4, i5⟩
    simp only [buildClassCore_eq]
    rw [i2]
  · intro cfg roots st
    rcases (buildRoots_spec cfg roots st).1 with ⟨nb, ne, hb, _, _⟩
    exact ⟨nb, hb⟩

/-- Witness for C6: post-order structure of a concrete class construction. -/
theorem claim_C6_post_order_emission_witness :
    (schemaSize addressSchema ≤ schemaSize addressSchema) ∧
    (∃ childMap newBlocks,
      (buildClassCore ⟨IncludeDtypes.off, some false, false⟩ "Customers"
        (schemaSize addressSchema) true "Customers" "Customers" addressSchema
        ⟨[], [], []⟩).2.emitted =
        [] ++ newBlocks ++ [renderClassBlock ⟨IncludeDtypes.off, some false, false⟩
          addressSchema childMap
          (buildClassCore ⟨IncludeDtypes.off, some false, false⟩ "Customers"
            (schemaSize addressSchema) true "Customers" "Customers" addressSchema
            ⟨[], [], []⟩).1] ∧
      childMap.map Prod.fst = structKeys addressSchema ∧
      (∀ p ∈ childMap, ∃ b ∈ newBlocks, ∃ s2 m2,
        b = renderClassBlock ⟨IncludeDtypes.off, some false, false⟩ s2 m2 p.2)) :=
  ⟨le_rfl, claim_C6_post_order_emission.1 ⟨IncludeDtypes.off, some false, false⟩ "Customers"
    (schemaSize addressSchema) true "Customers" "Customers" addressSchema ⟨[], [], []⟩ le_rfl⟩

/-- C1: class naming under the two modes.  For every class built during a
compile call: in multi-root mode each non-root struct's suggested name is the
naming-convention conversion of its own key concatenated with the root's
converted name, and the base actually reserved equals that concatenation
(`_to_class_name` is the identity on it); in single-root mode the suggestion
is the plain converted key; root classes suggest exactly the root name, never
suffixed; and whenever the base is not already taken the actual class name is
exactly the base.  Concretely, roots `Customers`/`Suppliers` each holding a
struct `address` yield `AddressCustomers` and `AddressSuppliers`, while the
single root `Customers` alone yields plain `Address`. -/
theorem claim_C1_root_suffix_naming :
    (∀ (cfg : Config) (roots : List (String × List (String × STree))),
      ∀ e ∈ (buildRoots cfg roots ⟨[], [], []⟩).2.log,
        (e.isRoot = false → cfg.multiRoots = true →
          e.suggested = toClassName e.key ++ e.rootName ∧ e.base = e.suggested) ∧
        (e.isRoot = false → cfg.multiRoots = false →
          e.suggested = toClassName e.key ∧ e.base = e.suggested) ∧
        (e.isRoot = true → e.suggested = e.rootName ∧ e.base = e.rootName) ∧
        (e.base ∉ e.usedBefore → e.actual = e.base)) ∧
    (∀ roots inc an multi m, schemasToModuleCore roots inc an multi = .ok m →
      m.state.log = (buildRoots ⟨inc, an, multi⟩ roots ⟨[], [], []⟩).2.log) ∧
    ((schemasToModuleCore [("Customers", addressSchema), ("Suppliers", addressSchema)]
        IncludeDtypes.off (some false) true).toOption.map
      (fun m => m.state.used.reverse) =
      some ["Customers", "AddressCustomers", "Suppliers", "AddressSuppliers"]) ∧
    ((schemasToModuleCore [("Customers", addressSchema)] IncludeDtypes.off (some false)
        false).toOption.map (fun m => m.state.used.reverse) =
      some ["Customers", "Address"]) := by
  refine ⟨?_, ?_, rfl, rfl⟩
  · intro cfg roots e he
    rcases (buildRoots_spec cfg roots ⟨[], [], []⟩).1 with ⟨nb, ne, _, hlog, hspec⟩
    rw [hlog] at he
    have he2 : e ∈ ne := by simpa using he
    rcases hspec e he2 with ⟨⟨rk, hrk⟩, hroot, hchild, hbase, hactual⟩
    refine ⟨?_, ?_, ?_, ?_⟩
    · intro hr hm
      have hs := hchild hr
      rw [hm, if_pos rfl] at hs
      refine ⟨hs, ?_⟩
      have hb2 : e.base = toClassName (toClassName e.key ++ toClassName rk) := by
        rw [hbase, hs, hrk]
      rw [hb2, toClassName_concat_fixed e.key rk, ← hrk, ← hs]
    · intro hr hm
      have hs := hchild hr
      rw [hm] at hs
      simp only [Bool.false_eq_true, if_false] at hs
      refine ⟨hs, ?_⟩
      rw [hbase, hs, toClassName_idem, ← hs]
    · intro hr
      have hs := hroot hr
      refine ⟨hs, ?_⟩
      rw [hbase, hs, hrk, toClassName_idem, ← hrk]
    · intro hfresh
      rw [hactual]
      exact (reserveClassName_spec e.usedBefore e.base).2.2.1 hfresh
  · intro roots inc an multi m h
    rw [(schemasToModuleCore_ok h).2.1]

/-- Witness for C1: the multi-root naming facts at the concrete `address`
event of a `Customers` root, membership discharged by computation. -/
theorem claim_C1_root_suffix_naming_witness :
    (⟨false, "address", "Customers", "AddressCustomers", "AddressCustomers",
      "AddressCustomers", ["Customers"], []⟩ : NameEvent).suggested =
        toClassName (⟨false, "address", "Customers", "AddressCustomers", "AddressCustomers",
          "AddressCustomers", ["Customers"], []⟩ : NameEvent).key ++
        (⟨false, "address", "Customers", "AddressCustomers", "AddressCustomers",
          "AddressCustomers", ["Customers"], []⟩ : NameEvent).rootName :=
  ((claim_C1_root_suffix_naming.1 ⟨IncludeDtypes.off, some false, true⟩
    [("Customers", addressSchema)]
    ⟨false, "address", "Customers", "AddressCustomers", "AddressCustomers",
      "AddressCustomers", ["Customers"], []⟩ (by decide)).1 rfl rfl).1

/-- C4: within one compile call every class name the resolver returns is
unique across all roots (the used-name list stays duplicate-free), attribute
names are unique within each class body, a colliding attribute gets the
underscore-separated suffix `_i` for the smallest unused `i ≥ 2`, and a
colliding class name gets the bare numeric suffix `i` for the smallest unused
`i ≥ 2`; fresh names are returned unchanged. -/
theorem claim_C4_name_uniqueness :
    (∀ (cfg : Config) (roots : List (String × List (String × STree))),
      (buildRoots cfg roots ⟨[], [], []⟩).2.used.Nodup) ∧
    (∀ roots inc an multi m, schemasToModuleCore roots inc an multi = .ok m →
      m.state.used = (buildRoots ⟨inc, an, multi⟩ roots ⟨[], [], []⟩).2.used) ∧
    (∀ (cfg : Config) (childMap : List (String × String))
      (children : List (String × STree)) (used : List String),
      ((classLines cfg childMap children used).map (fun p => p.1)).Nodup) ∧
    (∀ seen key, (reserveAttrName seen key).1 ∉ seen ∧
      ∀ i, sanitizeIdent key ∈ seen → 2 ≤ i →
        (∀ j, 2 ≤ j → j < i → sanitizeIdent key ++ "_" ++ decRepr j ∈ seen) →
        sanitizeIdent key ++ "_" ++ decRepr i ∉ seen →
        (reserveAttrName seen key).1 = sanitizeIdent key ++ "_" ++ decRepr i) ∧
    (∀ seen base, (reserveClassName seen base).1 ∉ seen ∧
      ∀ i, base ∈ seen → 2 ≤ i →
        (∀ j, 2 ≤ j → j < i → base ++ decRepr j ∈ seen) →
        base ++ decRepr i ∉ seen →
        (reserveClassName seen base).1 = base ++ decRepr i) := by
  refine ⟨?_, ?_, ?_, ?_, ?_⟩
  · intro cfg roots
    exact (buildRoots_spec cfg roots ⟨[], [], []⟩).2 List.nodup_nil
  · intro roots inc an multi m h
    rw [(schemasToModuleCore_ok h).2.1]
  · intro cfg childMap children used
    exact (classLines_attrs_spec cfg childMap children used).2
  · intro seen key
    rcases reserveAttrName_spec seen key with ⟨hfresh, _, _, hmem⟩
    refine ⟨hfresh, ?_⟩
    intro i hsk h2 hall hfree
    rcases hmem hsk with ⟨i0, h20, heq, hall0⟩
    have hf0 : sanitizeIdent key ++ "_" ++ decRepr i0 ∉ seen := heq ▸ hfresh
    rcases Nat.lt_trichotomy i i0 with hlt | heqq | hgt
    · exact absurd (hall0 i h2 hlt) hfree
    · rw [heq, heqq]
    · exact absurd (hall i0 h20 hgt) hf0
  · intro seen base
    rcases reserveClassName_spec seen base with ⟨hfresh, _, _, hmem⟩
    refine ⟨hfresh, ?_⟩
    intro i hsk h2 hall hfree
    rcases hmem hsk with ⟨i0, h20, heq, hall0⟩
    have hf0 : base ++ decRepr i0 ∉ seen := heq ▸ hfresh
    rcases Nat.lt_trichotomy i i0 with hlt | heqq | hgt
    · exact absurd (hall0 i h2 hlt) hfree
    · rw [heq, heqq]
    · exact absurd (hall i0 h20 hgt) hf0

/-- Witness for C4: collision suffixes at concrete used sets (`Address` taken
twice gives `Address2`; attribute `a` taken gives `a_2`), hypotheses
discharged by computation. -/
theorem claim_C4_name_uniqueness_witness :
    (buildRoots ⟨IncludeDtypes.off, some false, true⟩ [("Customers", addressSchema)]
      ⟨[], [], []⟩).2.used.Nodup ∧
    (reserveClassName ["Address"] "Address").1 = "Address" ++ decRepr 2 ∧
    (reserveAttrName ["a"] "a").1 = sanitizeIdent "a" ++ "_" ++ decRepr 2 :=
  ⟨claim_C4_name_uniqueness.1 ⟨IncludeDtypes.off, some false, true⟩
      [("Customers", addressSchema)],
   (claim_C4_name_uniqueness.2.2.2.2 ["Address"] "Address").2 2 (by decide) (by decide)
     (fun j hj1 hj2 => absurd (lt_of_lt_of_le hj2 hj1) (lt_irrefl j)) (by decide),
   (claim_C4_name_uniqueness.2.2.2.1 ["a"] "a").2 2 (by decide) (by decide)
     (fun j hj1 hj2 => absurd (lt_of_lt_of_le hj2 hj1) (lt_irrefl j)) (by decide)⟩

end Paguro
